import Mathlib

/-!
# lumail2: mailbox discovery, file helpers and the message flag binding

A shallow embedding of `src/file.cc` (`CFile::is_directory`,
`CFile::files_in_directory`, `CFile::basename`, `CFile::get_all_maildirs`)
and of `src/message_lua.cc` (`l_CMessage_flags`).

Conventions of the embedding.

* `std::string` is `String`; `std::vector<std::string>` is `List String`,
  `push_back` appends at the end.  `std::string` comparison is byte-wise; on
  UTF-8 text that is the code point order of `String`.
* The operating system is a finite directory tree (`Node`) without symbolic
  links, a working directory, and the list of directory handles that are open.
  `stat`, `opendir`, `readdir` and `closedir` are functions on that state.
* `c_str` cuts a string at its first NUL, as the conversion to `const char *`
  does for every consumer of the pointer.
* The recursion of `get_all_maildirs` is on path strings, so it carries fuel;
  `none` means the fuel ran out, and the theorems show that the height of the
  tree is enough fuel.
-/

namespace Lumail

/-! ## The file system -/

/-- The `d_type` value `DT_UNKNOWN` of `<dirent.h>`. -/
def DT_UNKNOWN : Nat := 0
/-- The `d_type` value `DT_DIR` of `<dirent.h>`. -/
def DT_DIR : Nat := 4
/-- The `d_type` value `DT_REG` of `<dirent.h>`. -/
def DT_REG : Nat := 8

/-- The file type mask `S_IFMT` of `<sys/stat.h>`. -/
def S_IFMT : Nat := 0o170000
/-- The file type bits of a directory. -/
def S_IFDIR : Nat := 0o040000
/-- The file type bits of a regular file. -/
def S_IFREG : Nat := 0o100000

/-- The macro `S_ISDIR` of `<sys/stat.h>`. -/
def S_ISDIR (st_mode : Nat) : Bool := (st_mode &&& S_IFMT) == S_IFDIR

/-- A node of the directory tree: a regular file, or a directory with its read
permission `r`, its write permission `w`, its search permission `x` and its
entries.  An entry is a name,
the `d_type` that `readdir` reports for it, and the node it names. -/
inductive Node where
  | file : Node
  | dir (r w x : Bool) (entries : List (String × Nat × Node)) : Node

/-- The state of the file system that path resolution needs: the tree and the
working directory, given by the names that lead to it from the top. -/
structure FS where
  top : Node
  cwd : List String

/-- What `readdir` hands out: the fields of `struct dirent` that the code reads. -/
structure dirent where
  d_name : String
  d_type : Nat
  deriving DecidableEq

/-- An open directory stream: its handle and the entries still to be read. -/
structure DIR where
  id : Nat
  entries : List dirent
  deriving DecidableEq

/-- The handles of the directory streams that are open. -/
abbrev Handles := List Nat

/-- The conversion `std::string::c_str()` as its consumers see it: the
characters before the first NUL. -/
def c_str (s : String) : String := ⟨s.data.takeWhile (fun c => c != '\x00')⟩

/-- The components of a path: the pieces between the slashes (possibly empty). -/
def splitSlash : List Char → List (List Char)
  | [] => [[]]
  | c :: cs =>
    if c = '/' then [] :: splitSlash cs
    else
      match splitSlash cs with
      | [] => [[c]]
      | h :: t => (c :: h) :: t

/-- The entry called `name` among the entries of a directory. -/
def findEntry (name : String) : List (String × Nat × Node) → Option Node
  | [] => none
  | (n, _, nd) :: rest => if n = name then some nd else findEntry name rest

/-- One step of path resolution.  The state is the node reached and its
ancestors, innermost first.  Every component needs a directory.  An empty
component (a doubled or trailing slash) stays and looks nothing up; every other
component is looked up in the directory, which needs its search permission:
`.` stays, `..` goes up (and stays at the top), a name goes to the entry of
that name. -/
def lookupStep (stack : List Node) (comp : String) : Option (List Node) :=
  match stack with
  | [] => none
  | Node.file :: _ => none
  | Node.dir r w x es :: rest =>
    if comp = "" then some (Node.dir r w x es :: rest)
    else if x = false then none
    else if comp = "." then some (Node.dir r w x es :: rest)
    else if comp = ".." then
      (match rest with
       | [] => some [Node.dir r w x es]
       | _ :: _ => some rest)
    else
      match findEntry comp es with
      | none => none
      | some nd => some (nd :: Node.dir r w x es :: rest)

/-- Resolve a list of components from a starting point. -/
def lookupFrom : List Node → List String → Option (List Node)
  | stack, [] => some stack
  | stack, comp :: comps =>
    match lookupStep stack comp with
    | none => none
    | some stack1 => lookupFrom stack1 comps

/-- Path resolution: the node a path names, with its ancestors.  The empty
path names nothing; a path that starts with a slash is resolved from the top,
any other from the working directory. -/
def namei (fs : FS) (path : String) : Option (List Node) :=
  match path.data with
  | [] => none
  | c :: cs =>
    let comps := (splitSlash (c :: cs)).map String.mk
    if c = '/' then lookupFrom [fs.top] comps
    else
      match lookupFrom [fs.top] fs.cwd with
      | none => none
      | some start => lookupFrom start comps

/-- The `st_mode` that `stat` reports for a node. -/
def st_mode : Node → Nat
  | Node.file => S_IFREG ||| 0o644
  | Node.dir r w x _ =>
    S_IFDIR ||| (if r then 0o400 else 0) ||| (if w then 0o200 else 0) ||| (if x then 0o100 else 0)

/-- The system call `stat` on a C string: `none` is the return value -1,
`some m` is the return value 0 with `sb.st_mode = m`. -/
def stat (fs : FS) (path : String) : Option Nat :=
  match namei fs path with
  | some (nd :: _) => some (st_mode nd)
  | _ => none

/-- The entries `readdir` reports for a directory: `.`, `..` and its entries. -/
def streamOf (es : List (String × Nat × Node)) : List dirent :=
  ⟨".", DT_DIR⟩ :: ⟨"..", DT_DIR⟩ :: es.map (fun e => ⟨e.1, e.2.1⟩)

/-- A handle that is not open. -/
def freshHandle (hs : Handles) : Nat := hs.foldr max 0 + 1

/-- The stream of the directory a C string names, when it names a directory
with read permission. -/
def dirStream (fs : FS) (path : String) : Option (List dirent) :=
  match namei fs path with
  | some (Node.dir true _ _ es :: _) => some (streamOf es)
  | _ => none

/-- The library call `opendir` on a C string: it succeeds on a directory with
read permission, and then a new handle is open. -/
def opendir (fs : FS) (path : String) (hs : Handles) : Option DIR × Handles :=
  match dirStream fs path with
  | some des => (some ⟨freshHandle hs, des⟩, freshHandle hs :: hs)
  | none => (none, hs)

/-- The library call `closedir`: the handle is no longer open. -/
def closedir (dp : DIR) (hs : Handles) : Handles := hs.erase dp.id

/-- Lexicographic comparison of character sequences, as `std::string::compare`
does it: the first difference decides, and a proper prefix is smaller. -/
def lt_chars : List Char → List Char → Bool
  | _, [] => false
  | [], _ :: _ => true
  | a :: as, b :: bs =>
    if a.toNat < b.toNat then true
    else if b.toNat < a.toNat then false
    else lt_chars as bs

/-- The operator `<` of `std::string`. -/
def str_lt (a b : String) : Bool := lt_chars a.data b.data

/-- The order `std::sort` sorts by: `a` may stand before `b` unless `b < a`. -/
def str_le (a b : String) : Prop := str_lt b a = false

instance : DecidableRel str_le := fun a b => inferInstanceAs (Decidable (str_lt b a = false))

/-- The algorithm `std::sort` on a vector of strings: the ascending
rearrangement of the vector. -/
def std_sort (v : List String) : List String := v.insertionSort str_le

/-! ## `src/file.cc` -/

/-- The function `CFile::is_directory`. -/
def is_directory (fs : FS) (path : String) : Bool :=
  match stat fs (c_str path) with
  | none => false
  | some m => S_ISDIR m

/-- The body of the `readdir` loop of `CFile::files_in_directory`, run over the
entries of the stream. -/
def files_loop (fs : FS) (base : String) : List dirent → List String → List String
  | [], results => results
  | de :: rest, results =>
    if de.d_name ≠ "." ∧ de.d_name ≠ ".." then
      let file := base ++ de.d_name
      if !is_directory fs file then files_loop fs base rest (results ++ [file])
      else files_loop fs base rest results
    else files_loop fs base rest results

/-- The function `CFile::files_in_directory`.  `none` is the failed `assert`, which aborts
the program. -/
def files_in_directory (fs : FS) (path : String) (hs : Handles) :
    Option (List String × Handles) :=
  if is_directory fs path = true then
    match opendir fs (c_str path) hs with
    | (some dp, hs1) =>
      let base := path ++ "/"
      let results := files_loop fs base dp.entries []
      some (std_sort results, closedir dp hs1)
    | (none, hs1) => some (std_sort [], hs1)
  else none

/-- The body of the `readdir` loop of `CFile::get_all_maildirs`, run over the
entries of the stream; `recurse` is the recursive call. -/
def scan_entries (is_maildir : String → Bool) (fs : FS)
    (recurse : String → Handles → Option (List String × Handles)) (pfx : String) :
    List dirent → List String → Handles → Option (List String × Handles)
  | [], result, hs => some (result, hs)
  | de :: rest, result, hs =>
    if de.d_name ≠ "." ∧ de.d_name ≠ ".." ∧
        (de.d_type = DT_UNKNOWN ∨ de.d_type = DT_DIR) then
      let subdir_name := de.d_name
      let subdir_path := pfx ++ "/" ++ subdir_name
      if is_maildir subdir_path = true then
        scan_entries is_maildir fs recurse pfx rest (result ++ [subdir_path]) hs
      else if subdir_name ≠ "." ∧ subdir_name ≠ ".." then
        match opendir fs (c_str subdir_path) hs with
        | (some sdp, hs1) =>
          match recurse subdir_path (closedir sdp hs1) with
          | none => none
          | some (sub_maildirs, hs2) =>
            scan_entries is_maildir fs recurse pfx rest (result ++ sub_maildirs) hs2
        | (none, hs1) => scan_entries is_maildir fs recurse pfx rest result hs1
      else scan_entries is_maildir fs recurse pfx rest result hs
    else scan_entries is_maildir fs recurse pfx rest result hs

/-- The first statement of `CFile::get_all_maildirs`:
`prefix = prefix.empty () ? "." : prefix.c_str ()`. -/
def normPrefix (pfx : String) : String := if pfx = "" then "." else c_str pfx

/-- The function `CFile::get_all_maildirs`, with `CMaildir::is_maildir` (of `maildir.cc`) as
the parameter `is_maildir`.  `none` means that the fuel ran out. -/
def get_all_maildirs (is_maildir : String → Bool) (fs : FS) :
    Nat → String → Handles → Option (List String × Handles)
  | 0, _, _ => none
  | fuel + 1, pfx, hs =>
    let pfx := normPrefix pfx
    match opendir fs (c_str pfx) hs with
    | (some dp, hs1) =>
      let result := if is_maildir pfx = true then [pfx] else []
      match scan_entries is_maildir fs (get_all_maildirs is_maildir fs fuel) pfx
          dp.entries result hs1 with
      | none => none
      | some (result1, hs2) => some (std_sort result1, closedir dp hs2)
    | (none, hs1) => some ([], hs1)

/-- Modelled from the spec: `CMaildir::is_maildir` of `maildir.cc`, which is
not among the sources.  A path is a mailbox iff it is a directory and holds the
three directories `cur`, `tmp` and `new`; any `stat` failure gives `false`. -/
def CMaildir_is_maildir (fs : FS) (path : String) : Bool :=
  is_directory fs path && is_directory fs (path ++ "/cur") &&
    is_directory fs (path ++ "/tmp") && is_directory fs (path ++ "/new")

/-- The search of `std::string::find_last_of`: the last position of `l` that
holds one of the characters `set`; `none` is `std::string::npos`. -/
def find_last_of_chars (set : List Char) : List Char → Option Nat
  | [] => none
  | c :: cs =>
    match find_last_of_chars set cs with
    | some i => some (i + 1)
    | none => if c ∈ set then some 0 else none

/-- The function `std::string::find_last_of` with a string of characters to look for. -/
def find_last_of (s : String) (set : String) : Option Nat :=
  find_last_of_chars set.data s.data

/-- The function `std::string::substr (pos)`: the rest of the string from `pos` on; `none` is
the exception `std::out_of_range`, thrown when `pos` is beyond the end. -/
def substr (s : String) (pos : Nat) : Option String :=
  if pos ≤ s.data.length then some ⟨s.data.drop pos⟩ else none

/-- The function `CFile::basename`. -/
def basename (path : String) : Option String :=
  match find_last_of path "/" with
  | some offset => substr path (offset + 1)
  | none => some path

/-! ## `src/message.h` and `src/message_lua.cc` -/

/-- The class `CMessage` with the data members that `message.h` declares: the
path of the message and its cached parts, which are pointers. -/
structure CMessage where
  m_path : String
  m_parts : List Nat
  deriving DecidableEq

/-- The text before and the text after the first occurrence of `marker`. -/
def splitAtMarker (marker : List Char) : List Char → Option (List Char × List Char)
  | [] => none
  | c :: cs =>
    if marker.isPrefixOf (c :: cs) = true then some ([], (c :: cs).drop marker.length)
    else
      match splitAtMarker marker cs with
      | some (before, after) => some (c :: before, after)
      | none => none

/-- Modelled from the spec: `CMessage::get_flags` of `message.cc`, which is not
among the sources.  The flags are encoded in the file name of the message, as
in `1234.host:2,S`: they are the characters after the marker `:2,`, and a name
without the marker has no flags. -/
def CMessage.get_flags (m : CMessage) : String :=
  match splitAtMarker ":2,".data m.m_path.data with
  | some (_, flags) => ⟨flags⟩
  | none => ""

/-- Modelled from the spec: `CMessage::set_flags` of `message.cc`, which is not
among the sources.  The flag set is replaced wholesale by the string as given:
the path of the message is rewritten to carry the new flags after the marker. -/
def CMessage.set_flags (m : CMessage) (new_flags : String) : CMessage :=
  match splitAtMarker ":2,".data m.m_path.data with
  | some (before, _) => { m with m_path := ⟨before ++ ":2,".data ++ new_flags.data⟩ }
  | none => { m with m_path := m.m_path ++ ":2," ++ new_flags }

/-- A value on the Lua stack.  A number is given by the text Lua converts it
to; a userdata carries the name of its metatable and the pointer it holds, here
an index into the objects of the heap. -/
inductive LuaValue where
  | nil : LuaValue
  | boolean (b : Bool) : LuaValue
  | number (text : String) : LuaValue
  | string (s : String) : LuaValue
  | userdata (tname : String) (ptr : Nat) : LuaValue
  deriving DecidableEq

/-- The part of `lua_State` that the binding touches: the stack of the call,
index 1 first, and the `CMessage` objects that userdata point to. -/
structure lua_State where
  stack : List LuaValue
  heap : List CMessage
  deriving DecidableEq

/-- The name Lua gives the type of a value in error messages. -/
def luaL_typename : Option LuaValue → String
  | none => "no value"
  | some LuaValue.nil => "nil"
  | some (LuaValue.boolean _) => "boolean"
  | some (LuaValue.number _) => "number"
  | some (LuaValue.string _) => "string"
  | some (LuaValue.userdata _ _) => "userdata"

/-- The value at a positive stack index. -/
def lua_index (l : lua_State) (n : Nat) : Option LuaValue :=
  if n = 0 then none else l.stack.get? (n - 1)

/-- The function `lua_gettop`: the number of values on the stack. -/
def lua_gettop (l : lua_State) : Nat := l.stack.length

/-- A raised Lua error: the argument error of `luaL_argerror` with the number
of the argument, what was expected and the type that was found; or the use of
a pointer that points to no object. -/
inductive LuaError where
  | bad_argument (narg : Nat) (expected : String) (got : String) : LuaError
  | dangling_pointer : LuaError
  deriving DecidableEq

/-- The function `luaL_checkstring`: the string at the index, a number being converted;
any other value raises the argument error (`Except.error`). -/
def luaL_checkstring (l : lua_State) (n : Nat) : Except LuaError String :=
  match lua_index l n with
  | some (LuaValue.string s) => Except.ok (c_str s)
  | some (LuaValue.number text) => Except.ok text
  | v => Except.error (LuaError.bad_argument n "string" (luaL_typename v))

/-- The function `luaL_checkudata`: the pointer of the userdata at the index, when its
metatable is the one named; any other value raises the argument error. -/
def luaL_checkudata (l : lua_State) (n : Nat) (tname : String) : Except LuaError Nat :=
  match lua_index l n with
  | some (LuaValue.userdata t ptr) =>
    if t = tname then Except.ok ptr
    else Except.error (LuaError.bad_argument n tname "userdata")
  | v => Except.error (LuaError.bad_argument n tname (luaL_typename v))

/-- The function `lua_pushstring`: push a copy of the C string. -/
def lua_pushstring (l : lua_State) (s : String) : lua_State :=
  { l with stack := l.stack ++ [LuaValue.string s] }

/-- The function `l_CheckCMessage`: the `CMessage` pointer in the userdata at index `n`. -/
def l_CheckCMessage (l : lua_State) (n : Nat) : Except LuaError Nat :=
  luaL_checkudata l n "luaL_CMessage"

/-- The binding `l_CMessage_flags`.  The result is the state after the call, in
which the one return value is on top of the stack; `Except.error` is a raised
Lua error. -/
def l_CMessage_flags (l : lua_State) : Except LuaError lua_State :=
  match l_CheckCMessage l 1 with
  | Except.error e => Except.error e
  | Except.ok foo =>
    let n := lua_gettop l
    let afterSet : Except LuaError lua_State :=
      if n > 1 then
        match luaL_checkstring l 1 with
        | Except.error e => Except.error e
        | Except.ok update =>
          match l.heap[foo]? with
          | none => Except.error LuaError.dangling_pointer
          | some m => Except.ok { l with heap := l.heap.set foo (m.set_flags update) }
      else Except.ok l
    match afterSet with
    | Except.error e => Except.error e
    | Except.ok l1 =>
      match l1.heap[foo]? with
      | none => Except.error LuaError.dangling_pointer
      | some m => Except.ok (lua_pushstring l1 (c_str m.get_flags))

/-! ## Well-formed trees -/

/-- A name that a directory entry can have: not empty, not `.` or `..`, without
a slash and without a NUL. -/
def validName (n : String) : Bool :=
  n != "" && n != "." && n != ".." && !n.data.contains '/' && !n.data.contains '\x00'

mutual
/-- The height of a tree. -/
def Node.height : Node → Nat
  | Node.file => 0
  | Node.dir _ _ _ es => entriesHeight es + 1
/-- The greatest height among the entries of a directory. -/
def entriesHeight : List (String × Nat × Node) → Nat
  | [] => 0
  | (_, _, nd) :: rest => max (Node.height nd) (entriesHeight rest)
end

/-- The `d_type` of an entry fits its node: `DT_UNKNOWN` always does, `DT_DIR`
is reported for directories only, and a directory is reported as nothing else. -/
def typeFits (t : Nat) : Node → Bool
  | Node.file => t != DT_DIR
  | Node.dir _ _ _ _ => t == DT_UNKNOWN || t == DT_DIR

mutual
/-- A directory tree as a file system holds it: entry names are valid and
differ within a directory, and the reported `d_type` fits. -/
def Node.wf : Node → Bool
  | Node.file => true
  | Node.dir _ _ _ es => entriesWf es
/-- Well-formedness of the entries of a directory. -/
def entriesWf : List (String × Nat × Node) → Bool
  | [] => true
  | (n, t, nd) :: rest =>
    validName n && rest.all (fun e => e.1 != n) && typeFits t nd && Node.wf nd && entriesWf rest
end

/-- The path `root/n1/.../nk`. -/
def joinPath (root : String) : List String → String
  | [] => root
  | n :: ns => joinPath (root ++ "/" ++ n) ns

/-- The node reached from a node by a chain of entry names. -/
def descend : Node → List String → Option Node
  | nd, [] => some nd
  | Node.file, _ :: _ => none
  | Node.dir _ _ _ es, n :: ns =>
    match findEntry n es with
    | none => none
    | some nd => descend nd ns

/-- The node is a directory. -/
def Node.isDir : Node → Bool
  | Node.file => false
  | Node.dir _ _ _ _ => true

/-- The chain `names` leads from the directory `nd`, which the path `root`
names, to a directory that the scan of `root` puts into its result: the path of
the chain is a mailbox, and every directory strictly between `root` and it is
not a mailbox and can be opened. -/
def ScanFinds (is_maildir : String → Bool) (fs : FS) : String → Node → List String → Prop
  | root, _, [] => is_maildir root = true
  | _, Node.file, _ :: _ => False
  | root, Node.dir _ _ _ es, n :: ns =>
    ∃ c, findEntry n es = some c ∧ c.isDir = true ∧
      (if ns = [] then is_maildir (root ++ "/" ++ n) = true
       else is_maildir (root ++ "/" ++ n) = false ∧
        (dirStream fs (root ++ "/" ++ n)).isSome = true ∧
        ScanFinds is_maildir fs (root ++ "/" ++ n) c ns)

/-! ## The system calls `unlink` and `rename` -/

/-- One step of path resolution on names instead of nodes: the names of the
place reached, innermost first.  It goes with `lookupStep`. -/
def canonStep (names : List String) (comp : String) : List String :=
  if comp = "" ∨ comp = "." then names
  else if comp = ".." then names.tail
  else comp :: names

/-- The names of the place that components lead to from a starting place. -/
def canonFrom (start : List String) (comps : List String) : List String :=
  comps.foldl canonStep start

/-- The place a path names, as the chain of entry names from the top; it is
the place of the node that `namei` finds, when `namei` finds one. -/
def canonPath (fs : FS) (path : String) : List String :=
  match path.data with
  | [] => []
  | c :: cs =>
    let comps := (splitSlash (c :: cs)).map String.mk
    let start := if c = '/' then [] else canonFrom [] fs.cwd
    (canonFrom start comps).reverse

/-- Resolution of all but the last component of a path: the directory reached
with its ancestors, the place of that directory, and the last component. -/
def nameiParent (fs : FS) (path : String) : Option (List Node × List String × String) :=
  match path.data with
  | [] => none
  | c :: cs =>
    let comps := (splitSlash (c :: cs)).map String.mk
    let start := if c = '/' then some [fs.top] else lookupFrom [fs.top] fs.cwd
    let startNames := if c = '/' then [] else canonFrom [] fs.cwd
    match start with
    | none => none
    | some st =>
      match lookupFrom st comps.dropLast with
      | none => none
      | some s => some (s, (canonFrom startNames comps.dropLast).reverse, comps.getLast?.getD "")

mutual
/-- The tree without the entry at a chain of names. -/
def Node.removeAt : Node → List String → Node
  | Node.file, _ => Node.file
  | Node.dir r w x es, names => Node.dir r w x (removeEntry es names)
/-- The entries without the entry at a chain of names. -/
def removeEntry : List (String × Nat × Node) → List String → List (String × Nat × Node)
  | [], _ => []
  | e :: rest, [] => e :: rest
  | (n, t, nd) :: rest, a :: as =>
    if n = a then
      (match as with
       | [] => rest
       | _ :: _ => (n, t, Node.removeAt nd as) :: rest)
    else (n, t, nd) :: removeEntry rest (a :: as)
end

mutual
/-- The tree with an entry put into the directory at a chain of names, in place
of the entry of the same name if there is one. -/
def Node.insertAt : Node → List String → String × Nat × Node → Node
  | Node.file, _, _ => Node.file
  | Node.dir r w x es, [], e => Node.dir r w x (e :: es.filter (fun o => o.1 != e.1))
  | Node.dir r w x es, a :: as, e => Node.dir r w x (insertEntry es a as e)
/-- The entries with an entry put into the directory at a chain of names. -/
def insertEntry : List (String × Nat × Node) → String → List String → String × Nat × Node →
    List (String × Nat × Node)
  | [], _, _, _ => []
  | (n, t, nd) :: rest, a, as, e =>
    if n = a then (n, t, Node.insertAt nd as e) :: rest
    else (n, t, nd) :: insertEntry rest a as e
end

/-- The `d_type` a file system reports for a node. -/
def d_type_of : Node → Nat
  | Node.file => DT_REG
  | Node.dir _ _ _ _ => DT_DIR

/-- The system call `unlink` on a C string: the return value and the file
system after the call.  The call removes the entry of a regular file from a
directory with write permission and returns 0; when the path does not resolve,
or names a directory, or the directory of the entry has no write permission, it
returns -1 and changes nothing. -/
def unlink (fs : FS) (path : String) : Int × FS :=
  match namei fs path with
  | some (Node.file :: Node.dir _ true _ _ :: _) =>
    (0, { fs with top := fs.top.removeAt (canonPath fs path) })
  | _ => (-1, fs)

/-- An entry of the kind of `nd` may take the place of `old`: a file that of a
file, a directory that of an empty directory. -/
def mayReplace : Node → Node → Bool
  | Node.file, Node.file => true
  | Node.dir _ _ _ _, Node.dir _ _ _ [] => true
  | _, _ => false

/-- The system call `rename` on C strings: the return value and the file system
after the call.  The old path must resolve to an entry of a directory with
write permission, the new path to a name in a directory with write and search
permission; the entry moves there, in place of what the new path names if
`mayReplace` allows it, and the call returns 0.  A directory does not move into
itself.  Every failure returns -1 and changes nothing. -/
def rename (fs : FS) (oldpath newpath : String) : Int × FS :=
  match namei fs oldpath, nameiParent fs newpath with
  | some (nd :: Node.dir _ true _ _ :: _), some (Node.dir _ true true es :: _, parent, name) =>
    if name = "" ∨ name = "." ∨ name = ".." then (-1, fs)
    else if canonPath fs oldpath = parent ++ [name] then (0, fs)
    else if (canonPath fs oldpath).isPrefixOf (parent ++ [name]) = true then (-1, fs)
    else
      let moved : Int × FS :=
        (0, { fs with top :=
          (fs.top.removeAt (canonPath fs oldpath)).insertAt parent (name, d_type_of nd, nd) })
      match findEntry name es with
      | none => moved
      | some old => if mayReplace nd old = true then moved else (-1, fs)
  | _, _ => (-1, fs)

/-! ## `src/file.cc`: `exists`, `delete_file` and `move` -/

/-- The function `CFile::exists`: `stat` returns 0.  (The name `exists` is a
keyword here.) -/
def CFile_exists (fs : FS) (path : String) : Bool :=
  match stat fs (c_str path) with
  | some _ => true
  | none => false

/-- The function `CFile::delete_file`: the returned `bool` and the file system
after the call.  `none` is a failed `assert`, which aborts the program.  The
`int` that `unlink` returns initialises a `bool`, which is `true` for every
value but 0. -/
def delete_file (fs : FS) (path : String) : Option (Bool × FS) :=
  if !is_directory fs path then
    let r := unlink fs (c_str path)
    let result : Bool := r.1 != 0
    let fs1 := r.2
    if !CFile_exists fs1 path then some (result, fs1) else none
  else none

/-- The function `CFile::move`: the returned `bool` and the file system after
the call.  `none` is a failed `assert`, which aborts the program. -/
def move (fs : FS) (src dst : String) : Option (Bool × FS) :=
  let r := rename fs (c_str src) (c_str dst)
  let ret := r.1
  let fs1 := r.2
  if CFile_exists fs1 dst then
    if !CFile_exists fs1 src then some (ret == 0, fs1) else none
  else none

/-! ## Auxiliary definitions of the proofs -/

/-- The string holds no NUL: it is a C string. -/
def NulFree (s : String) : Prop := '\x00' ∉ s.data

instance : DecidablePred NulFree := fun s => inferInstanceAs (Decidable ('\x00' ∉ s.data))

/-- Every node of a resolution state is well formed and no higher than `H`. -/
def GoodStack (H : Nat) (s : List Node) : Prop :=
  ∀ nd ∈ s, nd.wf = true ∧ nd.height ≤ H

/-- What one entry of the stream adds to the result, when the recursive call
on a path returns `R path`. -/
def contrib (is_maildir : String → Bool) (fs : FS) (R : String → List String) (pfx : String)
    (de : dirent) : List String :=
  if de.d_name ≠ "." ∧ de.d_name ≠ ".." ∧ (de.d_type = DT_UNKNOWN ∨ de.d_type = DT_DIR) then
    if is_maildir (pfx ++ "/" ++ de.d_name) = true then [pfx ++ "/" ++ de.d_name]
    else if (dirStream fs (c_str (pfx ++ "/" ++ de.d_name))).isSome = true then
      R (pfx ++ "/" ++ de.d_name)
    else []
  else []

/-- The result of `get_all_maildirs` on a normalised prefix, as a function of
the tree alone. -/
def collect (is_maildir : String → Bool) (fs : FS) : Nat → String → List String
  | 0, _ => []
  | fuel + 1, pfx =>
    match dirStream fs (c_str pfx) with
    | none => []
    | some des =>
      std_sort ((if is_maildir pfx = true then [pfx] else []) ++
        des.flatMap (contrib is_maildir fs (collect is_maildir fs fuel) pfx))

/-- The characters that `joinPath` adds to its root. -/
def tailChars : List String → List Char
  | [] => []
  | n :: ns => '/' :: (n.data ++ tailChars ns)

/-- The stack holds the nodes along a chain of entry names from `top`; stack
and names are innermost first. -/
inductive Chain (top : Node) : List Node → List String → Prop where
  | base : Chain top [top] []
  | step {r w x : Bool} {es : List (String × Nat × Node)} {s : List Node} {ns : List String}
      {n : String} {nd : Node} :
      Chain top (Node.dir r w x es :: s) ns → findEntry n es = some nd →
      Chain top (nd :: Node.dir r w x es :: s) (n :: ns)

/-! ## Example trees -/

/-- An empty mailbox directory: `cur`, `tmp` and `new`. -/
def emptyMaildirEntries : List (String × Nat × Node) :=
  [("cur", DT_DIR, Node.dir true true true []), ("tmp", DT_DIR, Node.dir true true true []),
   ("new", DT_DIR, Node.dir true true true [])]

/-- The directory `/m/inbox` of the scenario: a mailbox that holds the mailbox
`archive`. -/
def scenarioInbox : Node :=
  Node.dir true true true
    (("archive", DT_DIR, Node.dir true true true emptyMaildirEntries) :: emptyMaildirEntries)

/-- The tree of the scenario: `/m` is not a mailbox, `/m/inbox` is a mailbox
and `/m/inbox/archive` is a mailbox.  The working directory is the top. -/
def scenarioFS : FS where
  top := Node.dir true true true [("m", DT_DIR, Node.dir true true true [("inbox", DT_DIR, scenarioInbox)])]
  cwd := []

/-- A larger tree: `/m/inbox` as in the scenario; the file `/m/notes.txt`; the
directory `/m/lists`, reported with `DT_UNKNOWN`, with the mailbox
`/m/lists/lean`; the mailbox `/m/private` without read permission; the
directory `/m/locked` without search permission; and the directory `/m/frozen`
without write permission, with the file `/m/frozen/f.txt`. -/
def sampleFS : FS where
  top := Node.dir true true true
    [("m", DT_DIR, Node.dir true true true
      [("inbox", DT_DIR, scenarioInbox),
       ("notes.txt", DT_REG, Node.file),
       ("lists", DT_UNKNOWN, Node.dir true true true
          [("lean", DT_DIR, Node.dir true true true emptyMaildirEntries)]),
       ("private", DT_DIR, Node.dir false true true emptyMaildirEntries),
       ("locked", DT_DIR, Node.dir true true false
          [("box", DT_DIR, Node.dir true true true emptyMaildirEntries)]),
       ("frozen", DT_DIR, Node.dir true false true [("f.txt", DT_REG, Node.file)])])]
  cwd := []

/-! ## Path resolution -/

theorem splitSlash_ne_nil (l : List Char) : splitSlash l ≠ [] := by
  cases l with
  | nil => simp [splitSlash]
  | cons c cs =>
    simp only [splitSlash]
    split
    · simp
    · split <;> simp

theorem splitSlash_noSlash (l : List Char) (h : '/' ∉ l) : splitSlash l = [l] := by
  induction l with
  | nil => rfl
  | cons c cs ih =>
    have hc : c ≠ '/' := fun e => h (by simp [e])
    have hcs : '/' ∉ cs := fun e => h (by simp [e])
    simp [splitSlash, hc, ih hcs]

theorem splitSlash_append (p n : List Char) :
    splitSlash (p ++ '/' :: n) = splitSlash p ++ splitSlash n := by
  induction p with
  | nil => simp [splitSlash]
  | cons c cs ih =>
    by_cases hc : c = '/'
    · simp [splitSlash, hc, ih]
    · simp only [List.cons_append, splitSlash, hc, if_false]
      rw [show cs.append ('/' :: n) = cs ++ '/' :: n from rfl, ih]
      cases h : splitSlash cs with
      | nil => exact absurd h (splitSlash_ne_nil cs)
      | cons a t => simp

theorem lookupFrom_append (s : List Node) (a b : List String) :
    lookupFrom s (a ++ b) = (lookupFrom s a).bind (fun s1 => lookupFrom s1 b) := by
  induction a generalizing s with
  | nil => simp [lookupFrom]
  | cons c cs ih =>
    simp only [List.cons_append, lookupFrom]
    cases lookupStep s c with
    | none => simp
    | some s1 => simpa using ih s1

theorem c_str_of_nulFree {s : String} (h : NulFree s) : c_str s = s := by
  apply String.ext
  simp only [c_str]
  apply List.takeWhile_eq_self_iff.mpr
  intro c hc
  have : c ≠ '\x00' := fun e => h (e ▸ hc)
  simpa using this

theorem nulFree_c_str (s : String) : NulFree (c_str s) := by
  intro h
  have := List.mem_takeWhile_imp h
  simp at this

theorem c_str_c_str (s : String) : c_str (c_str s) = c_str s :=
  c_str_of_nulFree (nulFree_c_str s)

theorem nulFree_normPrefix (root : String) : NulFree (normPrefix root) := by
  unfold normPrefix
  split
  · intro h
    simp at h
  · exact nulFree_c_str root

theorem normPrefix_of_nulFree {P : String} (h : NulFree P) (hne : P ≠ "") :
    normPrefix P = P := by
  simp [normPrefix, hne, c_str_of_nulFree h]

theorem validName_spec {n : String} (h : validName n = true) :
    n ≠ "" ∧ n ≠ "." ∧ n ≠ ".." ∧ '/' ∉ n.data ∧ NulFree n := by
  simpa [validName, NulFree, and_assoc] using h

theorem nulFree_child {P n : String} (hP : NulFree P) (hn : validName n = true) :
    NulFree (P ++ "/" ++ n) := by
  have hv := validName_spec hn
  unfold NulFree at *
  simp only [String.data_append, List.mem_append, not_or]
  exact ⟨⟨hP, by decide⟩, hv.2.2.2.2⟩

theorem child_ne_empty (P n : String) : P ++ "/" ++ n ≠ "" := by
  intro h
  have := congrArg String.data h
  simp at this

theorem lookupStep_valid {n : String} (hn : validName n = true) (r w x : Bool)
    (es : List (String × Nat × Node)) (rest : List Node) :
    lookupStep (Node.dir r w x es :: rest) n =
      if x = true then (findEntry n es).map (fun nd => nd :: Node.dir r w x es :: rest)
      else none := by
  have hv := validName_spec hn
  cases x with
  | false => simp [lookupStep, hv.1]
  | true =>
    simp only [lookupStep, hv.1, hv.2.1, hv.2.2.1, if_false]
    cases findEntry n es <;> simp

/-- Resolving `P/n` is resolving `P` and then taking one step by `n`. -/
theorem namei_child (fs : FS) {P n : String} (hP : P ≠ "") (hn : validName n = true) :
    namei fs (P ++ "/" ++ n) = (namei fs P).bind (fun s => lookupStep s n) := by
  have hv := validName_spec hn
  have hPd : P.data ≠ [] := fun e => hP (String.ext e)
  obtain ⟨c, cs, hcs⟩ := List.exists_cons_of_ne_nil hPd
  have hd : (P ++ "/" ++ n).data = c :: (cs ++ '/' :: n.data) := by
    simp [String.data_append, hcs]
  have hsplit : (splitSlash (c :: (cs ++ '/' :: n.data))).map String.mk =
      (splitSlash (c :: cs)).map String.mk ++ [n] := by
    have := splitSlash_append (c :: cs) n.data
    simp only [List.cons_append] at this
    rw [this, splitSlash_noSlash _ hv.2.2.2.1]
    simp
  have hone : ∀ s1, lookupFrom s1 [n] = lookupStep s1 n := by
    intro s1
    simp only [lookupFrom]
    cases lookupStep s1 n <;> rfl
  unfold namei
  rw [hd, hcs]
  simp only [hsplit, lookupFrom_append, hone]
  by_cases hc : c = '/'
  · simp [hc]
  · simp only [hc, if_false]
    cases lookupFrom [fs.top] fs.cwd <;> simp

/-! ## Well-formed trees and resolution -/

theorem findEntry_wf {n : String} {es : List (String × Nat × Node)} {nd : Node}
    (hwf : entriesWf es = true) (h : findEntry n es = some nd) :
    validName n = true ∧ nd.wf = true ∧ nd.height ≤ entriesHeight es ∧
      ∃ t, (n, t, nd) ∈ es ∧ typeFits t nd = true := by
  induction es with
  | nil => simp [findEntry] at h
  | cons e rest ih =>
    obtain ⟨m, t, c⟩ := e
    simp only [entriesWf, Bool.and_eq_true] at hwf
    simp only [findEntry] at h
    by_cases hm : m = n
    · simp only [hm, if_true, Option.some.injEq] at h
      subst h
      subst hm
      refine ⟨hwf.1.1.1.1, hwf.1.2, ?_, t, by simp, hwf.1.1.2⟩
      simp [entriesHeight]
    · simp only [hm, if_false] at h
      obtain ⟨h1, h2, h3, t', h4, h5⟩ := ih hwf.2 h
      refine ⟨h1, h2, ?_, t', by simp [h4], h5⟩
      simp only [entriesHeight]
      omega

theorem findEntry_of_mem {n : String} {t : Nat} {nd : Node} {es : List (String × Nat × Node)}
    (hwf : entriesWf es = true) (h : (n, t, nd) ∈ es) : findEntry n es = some nd := by
  induction es with
  | nil => simp at h
  | cons e rest ih =>
    obtain ⟨m, t', c⟩ := e
    simp only [entriesWf, Bool.and_eq_true] at hwf
    simp only [findEntry]
    rcases List.mem_cons.mp h with h | h
    · simp only [Prod.mk.injEq] at h
      simp [h.1, h.2.2]
    · have hne : m ≠ n := by
        have := List.all_eq_true.mp hwf.1.1.1.2 _ h
        intro e
        simp [e] at this
      simp only [hne, if_false]
      exact ih hwf.2 h

theorem lookupStep_good {H : Nat} {s s1 : List Node} {c : String} (hs : GoodStack H s)
    (h : lookupStep s c = some s1) : GoodStack H s1 := by
  unfold lookupStep at h
  split at h
  · simp at h
  · simp at h
  · rename_i r w x es rest
    split at h
    · simp only [Option.some.injEq] at h
      subst h
      exact hs
    · split at h
      · simp at h
      · split at h
        · simp only [Option.some.injEq] at h
          subst h
          exact hs
        · split at h
          · split at h
            · simp only [Option.some.injEq] at h
              subst h
              exact hs
            · simp only [Option.some.injEq] at h
              subst h
              intro nd hnd
              exact hs nd (List.mem_cons_of_mem _ hnd)
          · split at h
            · simp at h
            · rename_i nd hfind
              simp only [Option.some.injEq] at h
              subst h
              intro a ha
              rcases List.mem_cons.mp ha with ha | ha
              · subst ha
                have htop := hs (Node.dir r w x es) (by simp)
                have hw : entriesWf es = true := by simpa [Node.wf] using htop.1
                obtain ⟨_, h2, h3, _⟩ := findEntry_wf hw hfind
                refine ⟨h2, ?_⟩
                have := htop.2
                simp only [Node.height] at this
                omega
              · exact hs a ha

theorem lookupFrom_good {H : Nat} {s s1 : List Node} {cs : List String} (hs : GoodStack H s)
    (h : lookupFrom s cs = some s1) : GoodStack H s1 := by
  induction cs generalizing s with
  | nil =>
    simp only [lookupFrom, Option.some.injEq] at h
    subst h
    exact hs
  | cons c cs ih =>
    simp only [lookupFrom] at h
    cases hstep : lookupStep s c with
    | none => simp [hstep] at h
    | some s2 =>
      simp only [hstep] at h
      exact ih (lookupStep_good hs hstep) h

theorem namei_good {fs : FS} (hwf : fs.top.wf = true) {p : String} {s : List Node}
    (h : namei fs p = some s) : GoodStack fs.top.height s := by
  have h0 : GoodStack fs.top.height [fs.top] := by
    intro nd hnd
    simp only [List.mem_singleton] at hnd
    subst hnd
    exact ⟨hwf, le_refl _⟩
  unfold namei at h
  split at h
  · simp at h
  · simp only at h
    split at h
    · exact lookupFrom_good h0 h
    · cases hc : lookupFrom [fs.top] fs.cwd with
      | none => simp [hc] at h
      | some st =>
        simp only [hc] at h
        exact lookupFrom_good (lookupFrom_good h0 hc) h

/-! ## The order of `std::string` and `std::sort` -/

theorem lt_chars_irrefl (a : List Char) : lt_chars a a = false := by
  induction a with
  | nil => rfl
  | cons c cs ih => simp [lt_chars, ih]

theorem lt_chars_asymm (a b : List Char) (h : lt_chars a b = true) : lt_chars b a = false := by
  induction a generalizing b with
  | nil => cases b <;> simp_all [lt_chars]
  | cons c cs ih =>
    cases b with
    | nil => simp [lt_chars] at h
    | cons d ds =>
      simp only [lt_chars] at h ⊢
      by_cases h1 : c.toNat < d.toNat
      · have h2 : ¬ d.toNat < c.toNat := by omega
        simp [h1, h2]
      · by_cases h2 : d.toNat < c.toNat
        · simp [h1, h2] at h
        · simp only [h1, h2, if_false] at h ⊢
          exact ih ds h

theorem lt_chars_connex (a b : List Char) (h1 : lt_chars a b = false)
    (h2 : lt_chars b a = false) : a = b := by
  induction a generalizing b with
  | nil => cases b <;> simp_all [lt_chars]
  | cons c cs ih =>
    cases b with
    | nil => simp [lt_chars] at h2
    | cons d ds =>
      simp only [lt_chars] at h1 h2
      by_cases hcd : c.toNat < d.toNat
      · simp [hcd] at h1
      · by_cases hdc : d.toNat < c.toNat
        · simp [hdc] at h2
        · simp only [hcd, hdc, if_false] at h1 h2
          have e : c = d := by
            apply Char.ext
            apply UInt32.ext
            have : c.toNat = d.toNat := by omega
            exact this
          rw [e, ih ds h1 h2]

theorem lt_chars_trans (a b c : List Char) (h1 : lt_chars a b = true)
    (h2 : lt_chars b c = true) : lt_chars a c = true := by
  induction a generalizing b c with
  | nil =>
    cases c with
    | nil => cases b <;> simp [lt_chars] at h2
    | cons e es => rfl
  | cons x xs ih =>
    cases b with
    | nil => simp [lt_chars] at h1
    | cons y ys =>
      cases c with
      | nil => simp [lt_chars] at h2
      | cons z zs =>
        simp only [lt_chars] at h1 h2 ⊢
        by_cases hxy : x.toNat < y.toNat
        · by_cases hyz : y.toNat < z.toNat
          · have : x.toNat < z.toNat := by omega
            simp [this]
          · by_cases hzy : z.toNat < y.toNat
            · simp [hyz, hzy] at h2
            · have : x.toNat < z.toNat := by omega
              simp [this]
        · by_cases hyx : y.toNat < x.toNat
          · simp [hxy, hyx] at h1
          · simp only [hxy, hyx, if_false] at h1
            by_cases hyz : y.toNat < z.toNat
            · have : x.toNat < z.toNat := by omega
              simp [this]
            · by_cases hzy : z.toNat < y.toNat
              · simp [hyz, hzy] at h2
              · simp only [hyz, hzy, if_false] at h2
                have e1 : ¬ x.toNat < z.toNat := by omega
                have e2 : ¬ z.toNat < x.toNat := by omega
                simp only [e1, e2, if_false]
                exact ih ys zs h1 h2

theorem str_le_total (a b : String) : str_le a b ∨ str_le b a := by
  unfold str_le str_lt
  cases h : lt_chars b.data a.data with
  | false => exact Or.inl rfl
  | true => exact Or.inr (lt_chars_asymm _ _ h)

theorem str_le_trans (a b c : String) (h1 : str_le a b) (h2 : str_le b c) : str_le a c := by
  unfold str_le str_lt at *
  cases h : lt_chars c.data a.data with
  | false => rfl
  | true =>
    cases hb : lt_chars b.data c.data with
    | true =>
      have := lt_chars_trans _ _ _ hb h
      rw [h1] at this
      exact absurd this (by simp)
    | false =>
      have e : b.data = c.data := lt_chars_connex _ _ hb h2
      rw [← e, h1] at h
      exact absurd h (by simp)

theorem str_le_antisymm (a b : String) (h1 : str_le a b) (h2 : str_le b a) : a = b := by
  unfold str_le str_lt at *
  exact String.ext (lt_chars_connex _ _ h2 h1)

theorem std_sort_perm (l : List String) : (std_sort l).Perm l :=
  List.perm_insertionSort str_le l

theorem std_sort_sorted (l : List String) : (std_sort l).Sorted str_le :=
  haveI : IsTotal String str_le := ⟨str_le_total⟩
  haveI : IsTrans String str_le := ⟨str_le_trans⟩
  List.sorted_insertionSort str_le l

theorem mem_std_sort {l : List String} {x : String} : x ∈ std_sort l ↔ x ∈ l :=
  (std_sort_perm l).mem_iff

theorem std_sort_nodup {l : List String} (h : l.Nodup) : (std_sort l).Nodup :=
  (std_sort_perm l).nodup_iff.mpr h

theorem std_sort_congr {l1 l2 : List String} (h : l1.Perm l2) : std_sort l1 = std_sort l2 :=
  haveI : IsAntisymm String str_le := ⟨str_le_antisymm⟩
  List.eq_of_perm_of_sorted ((std_sort_perm l1).trans (h.trans (std_sort_perm l2).symm))
    (std_sort_sorted l1) (std_sort_sorted l2)

/-- A sorted vector without repetition is strictly ascending. -/
theorem strict_of_sorted_nodup {l : List String} (hs : l.Sorted str_le) (hn : l.Nodup) :
    l.Pairwise (fun a b => str_lt a b = true) := by
  have h := List.Pairwise.and hs hn
  refine h.imp ?_
  intro a b hab
  cases hlt : str_lt a b with
  | true => rfl
  | false => exact absurd (str_le_antisymm a b hab.1 hlt) hab.2

/-! ## The scan, read as a function of the tree -/

theorem opendir_some {fs : FS} {p : String} {des : List dirent} (h : dirStream fs p = some des)
    (hs : Handles) :
    opendir fs p hs = (some ⟨freshHandle hs, des⟩, freshHandle hs :: hs) := by
  simp [opendir, h]

theorem opendir_none {fs : FS} {p : String} (h : dirStream fs p = none) (hs : Handles) :
    opendir fs p hs = (none, hs) := by
  simp [opendir, h]

theorem closedir_fresh (hs : Handles) (des : List dirent) :
    closedir ⟨freshHandle hs, des⟩ (freshHandle hs :: hs) = hs := by
  simp [closedir]

theorem scan_entries_eq (is_maildir : String → Bool) (fs : FS)
    (recurse : String → Handles → Option (List String × Handles)) (R : String → List String)
    (pfx : String) (des : List dirent)
    (hrec : ∀ de ∈ des, de.d_name ≠ "." → de.d_name ≠ ".." →
      (dirStream fs (c_str (pfx ++ "/" ++ de.d_name))).isSome = true →
      ∀ hs, recurse (pfx ++ "/" ++ de.d_name) hs = some (R (pfx ++ "/" ++ de.d_name), hs)) :
    ∀ result hs, scan_entries is_maildir fs recurse pfx des result hs =
      some (result ++ des.flatMap (contrib is_maildir fs R pfx), hs) := by
  induction des with
  | nil => intro result hs; simp [scan_entries]
  | cons de rest ih =>
    intro result hs
    have ih1 := ih (fun d hd => hrec d (List.mem_cons_of_mem _ hd))
    simp only [scan_entries, List.flatMap_cons, contrib]
    by_cases hc : de.d_name ≠ "." ∧ de.d_name ≠ ".." ∧
        (de.d_type = DT_UNKNOWN ∨ de.d_type = DT_DIR)
    · have hc1 := hc.1
      have hc2 := hc.2.1
      simp only [hc, if_true]
      by_cases hm : is_maildir (pfx ++ "/" ++ de.d_name) = true
      · simp [hm, ih1, hc1, hc2]
      · cases hd : dirStream fs (c_str (pfx ++ "/" ++ de.d_name)) with
        | none =>
          simp [opendir_none hd, ih1, hm, hc1, hc2]
        | some ds =>
          have hr := hrec de (by simp) hc.1 hc.2.1 (by simp [hd]) hs
          simp [opendir_some hd, closedir_fresh, hr, ih1, hm, hc1, hc2]
    · simp only [hc, if_false, List.nil_append]
      exact ih1 result hs

theorem get_all_maildirs_succ (is_maildir : String → Bool) (fs : FS) (fuel : Nat)
    (root : String) (hs : Handles) :
    get_all_maildirs is_maildir fs (fuel + 1) root hs =
      match opendir fs (c_str (normPrefix root)) hs with
      | (some dp, hs1) =>
        match scan_entries is_maildir fs (get_all_maildirs is_maildir fs fuel) (normPrefix root)
            dp.entries (if is_maildir (normPrefix root) = true then [normPrefix root] else [])
            hs1 with
        | none => none
        | some (result1, hs2) => some (std_sort result1, closedir dp hs2)
      | (none, hs1) => some ([], hs1) := rfl

/-- The facts about the directory a normalised prefix names that the scan of
its entries relies on. -/
theorem dirStream_child {fs : FS} {pfx : String} {r w x : Bool}
    {es : List (String × Nat × Node)} {anc : List Node} (hP : pfx ≠ "") (hN : NulFree pfx)
    (hnm : namei fs pfx = some (Node.dir r w x es :: anc)) {n : String}
    (hn : validName n = true) :
    namei fs (c_str (pfx ++ "/" ++ n)) =
      if x = true then (findEntry n es).map (fun nd => nd :: Node.dir r w x es :: anc)
      else none := by
  rw [c_str_of_nulFree (nulFree_child hN hn), namei_child fs hP hn, hnm]
  simp [lookupStep_valid hn]

theorem mem_streamOf {es : List (String × Nat × Node)} {de : dirent} (h : de ∈ streamOf es)
    (h1 : de.d_name ≠ ".") (h2 : de.d_name ≠ "..") :
    ∃ nd, (de.d_name, de.d_type, nd) ∈ es := by
  simp only [streamOf, List.mem_cons, List.mem_map] at h
  rcases h with h | h | ⟨e, he, rfl⟩
  · exact absurd (by rw [h]) h1
  · exact absurd (by rw [h]) h2
  · exact ⟨e.2.2, he⟩

theorem mem_entries_valid {n : String} {t : Nat} {nd : Node} {es : List (String × Nat × Node)}
    (hwf : entriesWf es = true) (h : (n, t, nd) ∈ es) : validName n = true :=
  (findEntry_wf hwf (findEntry_of_mem hwf h)).1

/-- Enough fuel: `get_all_maildirs` returns, gives the result `collect` and
leaves the open handles as they were. -/
theorem get_all_maildirs_eq_collect (is_maildir : String → Bool) (fs : FS) :
    ∀ (fuel : Nat) (pfx : String), pfx ≠ "" → NulFree pfx →
      (∀ nd anc, namei fs pfx = some (nd :: anc) → nd.wf = true ∧ nd.height ≤ fuel) →
      ∀ hs, get_all_maildirs is_maildir fs (fuel + 1) pfx hs =
        some (collect is_maildir fs (fuel + 1) pfx, hs) := by
  intro fuel
  induction fuel with
  | zero =>
    intro pfx hP hN hnd hs
    have hnone : dirStream fs (c_str pfx) = none := by
      rw [c_str_of_nulFree hN]
      unfold dirStream
      split
      · rename_i w x es anc hnm
        have := (hnd _ _ hnm).2
        simp [Node.height] at this
      · rfl
    rw [get_all_maildirs_succ, normPrefix_of_nulFree hN hP, opendir_none hnone]
    simp [collect, hnone]
  | succ fuel ih =>
    intro pfx hP hN hnd hs
    rw [get_all_maildirs_succ, normPrefix_of_nulFree hN hP]
    cases hd : dirStream fs (c_str pfx) with
    | none => simp [opendir_none hd, collect, hd]
    | some des =>
      have hd0 := hd
      rw [c_str_of_nulFree hN] at hd
      unfold dirStream at hd
      split at hd
      · rename_i w x es anc hnm
        simp only [Option.some.injEq] at hd
        have htop := hnd _ _ hnm
        have hwf : entriesWf es = true := by simpa [Node.wf] using htop.1
        have hrec : ∀ de ∈ des, de.d_name ≠ "." → de.d_name ≠ ".." →
            (dirStream fs (c_str (pfx ++ "/" ++ de.d_name))).isSome = true →
            ∀ hs, get_all_maildirs is_maildir fs (fuel + 1) (pfx ++ "/" ++ de.d_name) hs =
              some (collect is_maildir fs (fuel + 1) (pfx ++ "/" ++ de.d_name), hs) := by
          intro de hde h1 h2 _ hs1
          rw [← hd] at hde
          obtain ⟨nd, hmem⟩ := mem_streamOf hde h1 h2
          have hv := mem_entries_valid hwf hmem
          apply ih _ (child_ne_empty _ _) (nulFree_child hN hv)
          intro c anc1 hc
          have hch := dirStream_child hP hN hnm hv
          rw [c_str_of_nulFree (nulFree_child hN hv)] at hch
          rw [hch] at hc
          cases x with
          | false => simp at hc
          | true =>
            cases hf : findEntry de.d_name es with
            | none => simp [hf] at hc
            | some c1 =>
              simp only [hf, if_true, Option.map_some', Option.some.injEq, List.cons.injEq] at hc
              obtain ⟨_, h2, h3, _⟩ := findEntry_wf hwf hf
              rw [← hc.1]
              refine ⟨h2, ?_⟩
              have := htop.2
              simp only [Node.height] at this
              omega
        rw [opendir_some hd0]
        simp only
        rw [scan_entries_eq is_maildir fs _ (collect is_maildir fs (fuel + 1)) pfx des hrec]
        simp [closedir_fresh, collect, hd0]
      · simp at hd

/-- With the height of the tree as fuel, `get_all_maildirs` returns on every
root, with the handles as before. -/
theorem get_all_maildirs_top (is_maildir : String → Bool) (fs : FS) (hwf : fs.top.wf = true)
    (fuel : Nat) (hfuel : fs.top.height ≤ fuel) (root : String) (hs : Handles) :
    get_all_maildirs is_maildir fs (fuel + 1) root hs =
      some (collect is_maildir fs (fuel + 1) (normPrefix root), hs) := by
  have hN := nulFree_normPrefix root
  by_cases hP : normPrefix root = ""
  · have hnone : dirStream fs (c_str (normPrefix root)) = none := by
      rw [hP]
      rfl
    rw [get_all_maildirs_succ, opendir_none hnone]
    simp [collect, hnone]
  · have h := get_all_maildirs_eq_collect is_maildir fs fuel (normPrefix root) hP hN
      (fun nd anc hnm =>
        ⟨(namei_good hwf hnm nd (by simp)).1, le_trans (namei_good hwf hnm nd (by simp)).2 hfuel⟩)
      hs
    rw [get_all_maildirs_succ] at h ⊢
    rw [normPrefix_of_nulFree hN hP] at h
    exact h

/-! ## Paths beneath a prefix -/

theorem joinPath_data (root : String) (names : List String) :
    (joinPath root names).data = root.data ++ tailChars names := by
  induction names generalizing root with
  | nil => simp [joinPath, tailChars]
  | cons n ns ih =>
    simp only [joinPath, tailChars]
    rw [ih]
    simp [String.data_append]

theorem tailChars_head (names : List String) :
    tailChars names = [] ∨ ∃ t, tailChars names = '/' :: t := by
  cases names with
  | nil => exact Or.inl rfl
  | cons n ns => exact Or.inr ⟨_, rfl⟩

theorem append_slash_inj (a b t1 t2 : List Char) (ha : '/' ∉ a) (hb : '/' ∉ b)
    (h1 : t1 = [] ∨ ∃ t, t1 = '/' :: t) (h2 : t2 = [] ∨ ∃ t, t2 = '/' :: t)
    (h : a ++ t1 = b ++ t2) : a = b ∧ t1 = t2 := by
  induction a generalizing b with
  | nil =>
    cases b with
    | nil => exact ⟨rfl, by simpa using h⟩
    | cons d ds =>
      rcases h1 with h1 | ⟨t, h1⟩
      · subst h1
        simp at h
      · subst h1
        simp only [List.nil_append, List.cons_append, List.cons.injEq] at h
        exact absurd h.1.symm (fun e => hb (by simp [e]))
  | cons c cs ih =>
    cases b with
    | nil =>
      rcases h2 with h2 | ⟨t, h2⟩
      · subst h2
        simp at h
      · subst h2
        simp only [List.nil_append, List.cons_append, List.cons.injEq] at h
        exact absurd h.1 (fun e => ha (by simp [e]))
    | cons d ds =>
      simp only [List.cons_append, List.cons.injEq] at h
      have hcs : '/' ∉ cs := fun e => ha (by simp [e])
      have hds : '/' ∉ ds := fun e => hb (by simp [e])
      obtain ⟨e1, e2⟩ := ih ds hcs hds h.2
      exact ⟨by rw [h.1, e1], e2⟩

theorem tailChars_inj (l1 l2 : List String) (h1 : ∀ n ∈ l1, validName n = true)
    (h2 : ∀ n ∈ l2, validName n = true) (h : tailChars l1 = tailChars l2) : l1 = l2 := by
  induction l1 generalizing l2 with
  | nil =>
    cases l2 with
    | nil => rfl
    | cons m ms => simp [tailChars] at h
  | cons n ns ih =>
    cases l2 with
    | nil => simp [tailChars] at h
    | cons m ms =>
      simp only [tailChars, List.cons.injEq, true_and] at h
      have hn := validName_spec (h1 n (by simp))
      have hm := validName_spec (h2 m (by simp))
      obtain ⟨e1, e2⟩ := append_slash_inj _ _ _ _ hn.2.2.2.1 hm.2.2.2.1
        (tailChars_head ns) (tailChars_head ms) h
      rw [String.ext e1, ih ms (fun a ha => h1 a (by simp [ha]))
        (fun a ha => h2 a (by simp [ha])) e2]

/-- Different chains of valid names give different paths. -/
theorem joinPath_inj (root : String) (l1 l2 : List String)
    (h1 : ∀ n ∈ l1, validName n = true) (h2 : ∀ n ∈ l2, validName n = true)
    (h : joinPath root l1 = joinPath root l2) : l1 = l2 := by
  have := congrArg String.data h
  rw [joinPath_data, joinPath_data] at this
  exact tailChars_inj l1 l2 h1 h2 (List.append_cancel_left this)

theorem dirStream_some {fs : FS} {p : String} {des : List dirent}
    (h : dirStream fs p = some des) :
    ∃ w x es anc, namei fs p = some (Node.dir true w x es :: anc) ∧ des = streamOf es := by
  unfold dirStream at h
  split at h
  · rename_i w x es anc hnm
    simp only [Option.some.injEq] at h
    exact ⟨w, x, es, anc, hnm, h.symm⟩
  · simp at h

/-- The step from a directory to one of its entries that can be opened. -/
theorem child_step {fs : FS} {pfx : String} {r w x : Bool} {es : List (String × Nat × Node)}
    {anc : List Node} (hP : pfx ≠ "") (hN : NulFree pfx)
    (hnm : namei fs pfx = some (Node.dir r w x es :: anc)) (hwf : entriesWf es = true)
    {n : String} (hv : validName n = true)
    (hopen : (dirStream fs (c_str (pfx ++ "/" ++ n))).isSome = true) :
    ∃ w1 x1 es1, findEntry n es = some (Node.dir true w1 x1 es1) ∧
      namei fs (pfx ++ "/" ++ n) = some (Node.dir true w1 x1 es1 :: Node.dir r w x es :: anc) ∧
      entriesWf es1 = true ∧ (Node.dir true w1 x1 es1).height < (Node.dir r w x es).height := by
  obtain ⟨des, hdes⟩ := Option.isSome_iff_exists.mp hopen
  obtain ⟨w1, x1, es1, anc1, hnm1, _⟩ := dirStream_some hdes
  have hch := dirStream_child hP hN hnm hv
  rw [hnm1] at hch
  rw [c_str_of_nulFree (nulFree_child hN hv)] at hnm1
  cases x with
  | false => simp at hch
  | true =>
    cases hf : findEntry n es with
    | none => simp [hf] at hch
    | some c =>
      simp only [hf, if_true, Option.map_some', Option.some.injEq, List.cons.injEq] at hch
      obtain ⟨_, h2, h3, _⟩ := findEntry_wf hwf hf
      rw [← hch.1] at h2 h3
      refine ⟨w1, x1, es1, by rw [hch.1], ?_, by simpa [Node.wf] using h2, ?_⟩
      · rw [hnm1, hch.2]
      · simp only [Node.height] at h3 ⊢
        omega

theorem mem_contrib {is_maildir : String → Bool} {fs : FS} {R : String → List String}
    {pfx : String} {de : dirent} {p : String} :
    p ∈ contrib is_maildir fs R pfx de ↔
      de.d_name ≠ "." ∧ de.d_name ≠ ".." ∧ (de.d_type = DT_UNKNOWN ∨ de.d_type = DT_DIR) ∧
        ((is_maildir (pfx ++ "/" ++ de.d_name) = true ∧ p = pfx ++ "/" ++ de.d_name) ∨
         (is_maildir (pfx ++ "/" ++ de.d_name) = false ∧
          (dirStream fs (c_str (pfx ++ "/" ++ de.d_name))).isSome = true ∧
          p ∈ R (pfx ++ "/" ++ de.d_name))) := by
  unfold contrib
  by_cases hc : de.d_name ≠ "." ∧ de.d_name ≠ ".." ∧
      (de.d_type = DT_UNKNOWN ∨ de.d_type = DT_DIR)
  · rw [if_pos hc]
    by_cases hm : is_maildir (pfx ++ "/" ++ de.d_name) = true
    · rw [if_pos hm]
      simp [hc.1, hc.2.1, hc.2.2, hm]
    · rw [if_neg hm]
      have hm1 : is_maildir (pfx ++ "/" ++ de.d_name) = false := by simpa using hm
      by_cases ho : (dirStream fs (c_str (pfx ++ "/" ++ de.d_name))).isSome = true
      · rw [if_pos ho]
        simp [hc.1, hc.2.1, hc.2.2, hm1, ho]
      · rw [if_neg ho]
        simp [hm1, ho]
  · rw [if_neg hc]
    constructor
    · intro h
      simp at h
    · intro h
      exact absurd ⟨h.1, h.2.1, h.2.2.1⟩ hc

theorem mem_collect_succ {is_maildir : String → Bool} {fs : FS} {fuel : Nat} {pfx : String}
    {des : List dirent} (hd : dirStream fs (c_str pfx) = some des) {p : String} :
    p ∈ collect is_maildir fs (fuel + 1) pfx ↔
      (is_maildir pfx = true ∧ p = pfx) ∨
        ∃ de ∈ des, p ∈ contrib is_maildir fs (collect is_maildir fs fuel) pfx de := by
  simp only [collect, hd, mem_std_sort, List.mem_append, List.mem_flatMap]
  by_cases hm : is_maildir pfx = true <;> simp [hm]

/-- Every path of the result is the prefix followed by a chain of valid names. -/
theorem collect_under (is_maildir : String → Bool) (fs : FS) :
    ∀ (fuel : Nat) (pfx : String), pfx ≠ "" → NulFree pfx →
      (∀ nd anc, namei fs pfx = some (nd :: anc) → nd.wf = true) →
      ∀ p ∈ collect is_maildir fs fuel pfx,
        ∃ names, (∀ n ∈ names, validName n = true) ∧ p = joinPath pfx names := by
  intro fuel
  induction fuel with
  | zero => intro pfx _ _ _ p hp; simp [collect] at hp
  | succ fuel ih =>
    intro pfx hP hN hnd p hp
    cases hd : dirStream fs (c_str pfx) with
    | none => simp [collect, hd] at hp
    | some des =>
      rcases (mem_collect_succ hd).mp hp with ⟨_, rfl⟩ | ⟨de, hde, hmem⟩
      · exact ⟨[], by simp, rfl⟩
      · rw [c_str_of_nulFree hN] at hd
        obtain ⟨w, x, es, anc, hnm, hdes⟩ := dirStream_some hd
        have hwf : entriesWf es = true := by simpa [Node.wf] using hnd _ _ hnm
        obtain ⟨h1, h2, _, hcase⟩ := mem_contrib.mp hmem
        rw [hdes] at hde
        obtain ⟨nd, hent⟩ := mem_streamOf hde h1 h2
        have hv := mem_entries_valid hwf hent
        rcases hcase with ⟨_, rfl⟩ | ⟨_, hopen, hrec⟩
        · exact ⟨[de.d_name], by simpa using hv, rfl⟩
        · obtain ⟨w1, x1, es1, _, hnm1, hwf1, _⟩ := child_step hP hN hnm hwf hv hopen
          obtain ⟨names, hnames, rfl⟩ := ih _ (child_ne_empty _ _) (nulFree_child hN hv)
            (fun nd1 anc1 h => by
              rw [hnm1] at h
              simp only [Option.some.injEq, List.cons.injEq] at h
              rw [← h.1]
              simpa [Node.wf] using hwf1) p hrec
          refine ⟨de.d_name :: names, ?_, rfl⟩
          intro n hn
          rcases List.mem_cons.mp hn with rfl | hn
          · exact hv
          · exact hnames n hn

theorem streamOf_pairwise {es : List (String × Nat × Node)} (hwf : entriesWf es = true) :
    (streamOf es).Pairwise (fun a b => a.d_name ≠ b.d_name) := by
  have hes : (es.map (fun e => (⟨e.1, e.2.1⟩ : dirent))).Pairwise
      (fun a b => a.d_name ≠ b.d_name) := by
    induction es with
    | nil => simp
    | cons e rest ih =>
      obtain ⟨m, t, c⟩ := e
      simp only [entriesWf, Bool.and_eq_true] at hwf
      simp only [List.map_cons, List.pairwise_cons, List.mem_map, forall_exists_index, and_imp,
        forall_apply_eq_imp_iff₂]
      refine ⟨?_, ih hwf.2⟩
      intro e he
      have := List.all_eq_true.mp hwf.1.1.1.2 _ he
      intro h
      simp [h] at this
  have hval : ∀ de ∈ es.map (fun e => (⟨e.1, e.2.1⟩ : dirent)), validName de.d_name = true := by
    intro de hde
    simp only [List.mem_map] at hde
    obtain ⟨e, he, rfl⟩ := hde
    exact mem_entries_valid hwf (show (e.1, e.2.1, e.2.2) ∈ es from he)
  simp only [streamOf, List.pairwise_cons]
  refine ⟨?_, ?_, hes⟩
  · intro b hb
    rcases List.mem_cons.mp hb with rfl | hb
    · decide
    · exact fun h => (validName_spec (hval b hb)).2.1 h.symm
  · intro b hb
    exact fun h => (validName_spec (hval b hb)).2.2.1 h.symm

/-- No path occurs twice in the result. -/
theorem collect_nodup (is_maildir : String → Bool) (fs : FS) :
    ∀ (fuel : Nat) (pfx : String), pfx ≠ "" → NulFree pfx →
      (∀ nd anc, namei fs pfx = some (nd :: anc) → nd.wf = true) →
      (collect is_maildir fs fuel pfx).Nodup := by
  intro fuel
  induction fuel with
  | zero => intro pfx _ _ _; simp [collect]
  | succ fuel ih =>
    intro pfx hP hN hnd
    cases hd : dirStream fs (c_str pfx) with
    | none => simp [collect, hd]
    | some des =>
      have hd0 := hd
      rw [c_str_of_nulFree hN] at hd
      obtain ⟨w, x, es, anc, hnm, hdes⟩ := dirStream_some hd
      have hwf : entriesWf es = true := by simpa [Node.wf] using hnd _ _ hnm
      -- what the entries contribute lies under `pfx/name`
      have hunder : ∀ de ∈ des, ∀ p ∈ contrib is_maildir fs (collect is_maildir fs fuel) pfx de,
          validName de.d_name = true ∧ ∃ names, (∀ n ∈ names, validName n = true) ∧
            p = joinPath pfx (de.d_name :: names) := by
        intro de hde p hp
        obtain ⟨h1, h2, _, hcase⟩ := mem_contrib.mp hp
        rw [hdes] at hde
        obtain ⟨nd, hent⟩ := mem_streamOf hde h1 h2
        have hv := mem_entries_valid hwf hent
        refine ⟨hv, ?_⟩
        rcases hcase with ⟨_, rfl⟩ | ⟨_, hopen, hrec⟩
        · exact ⟨[], by simp, rfl⟩
        · obtain ⟨w1, x1, es1, _, hnm1, hwf1, _⟩ := child_step hP hN hnm hwf hv hopen
          exact collect_under is_maildir fs fuel _ (child_ne_empty _ _) (nulFree_child hN hv)
            (fun nd1 anc1 h => by
              rw [hnm1] at h
              simp only [Option.some.injEq, List.cons.injEq] at h
              rw [← h.1]
              simpa [Node.wf] using hwf1) p hrec
      have hnodupC : ∀ de ∈ des,
          (contrib is_maildir fs (collect is_maildir fs fuel) pfx de).Nodup := by
        intro de hde
        unfold contrib
        split
        · rename_i hc
          split
          · simp
          · split
            · rename_i hopen
              rw [hdes] at hde
              obtain ⟨nd, hent⟩ := mem_streamOf hde hc.1 hc.2.1
              have hv := mem_entries_valid hwf hent
              obtain ⟨w1, x1, es1, _, hnm1, hwf1, _⟩ := child_step hP hN hnm hwf hv hopen
              exact ih _ (child_ne_empty _ _) (nulFree_child hN hv)
                (fun nd1 anc1 h => by
                  rw [hnm1] at h
                  simp only [Option.some.injEq, List.cons.injEq] at h
                  rw [← h.1]
                  simpa [Node.wf] using hwf1)
            · simp
        · simp
      have hflat : (des.flatMap (contrib is_maildir fs (collect is_maildir fs fuel) pfx)).Nodup := by
        rw [List.nodup_flatMap]
        refine ⟨hnodupC, ?_⟩
        have hpw := streamOf_pairwise hwf
        rw [← hdes] at hpw
        refine hpw.imp_of_mem ?_
        intro a b ha hb hab
        simp only [Function.onFun]
        rw [List.disjoint_left]
        intro p hpa hpb
        obtain ⟨hva, la, hla, ea⟩ := hunder a ha p hpa
        obtain ⟨hvb, lb, hlb, eb⟩ := hunder b hb p hpb
        have := joinPath_inj pfx (a.d_name :: la) (b.d_name :: lb)
          (by intro n hn; rcases List.mem_cons.mp hn with rfl | hn; exact hva; exact hla n hn)
          (by intro n hn; rcases List.mem_cons.mp hn with rfl | hn; exact hvb; exact hlb n hn)
          (ea.symm.trans eb)
        simp only [List.cons.injEq] at this
        exact hab this.1
      simp only [collect, hd0]
      apply std_sort_nodup
      rw [List.nodup_append]
      refine ⟨by split <;> simp, hflat, ?_⟩
      rw [List.disjoint_left]
      intro p hp1 hp2
      have hpp : p = pfx := by
        split at hp1
        · simpa using hp1
        · simp at hp1
      obtain ⟨de, hde, hpc⟩ := List.mem_flatMap.mp hp2
      obtain ⟨hva, la, hla, ea⟩ := hunder de hde p hpc
      have := joinPath_inj pfx [] (de.d_name :: la) (by simp)
        (by intro n hn; rcases List.mem_cons.mp hn with rfl | hn; exact hva; exact hla n hn)
        (by rw [← ea, hpp]; rfl)
      simp at this

theorem S_ISDIR_st_mode (nd : Node) : S_ISDIR (st_mode nd) = nd.isDir := by
  cases nd with
  | file => decide
  | dir r w x es =>
    have h : ∀ a b c : Bool,
        S_ISDIR (S_IFDIR ||| (if a then 0o400 else 0) ||| (if b then 0o200 else 0) |||
          (if c then 0o100 else 0)) = true := by
      decide
    exact h r w x

theorem is_directory_iff (fs : FS) (p : String) :
    is_directory fs p = true ↔
      ∃ nd anc, namei fs (c_str p) = some (nd :: anc) ∧ nd.isDir = true := by
  unfold is_directory stat
  split
  · rename_i h
    split at h
    · simp at h
    · rename_i h2
      constructor
      · intro hf
        simp at hf
      · rintro ⟨nd, anc, hnm, _⟩
        exact absurd hnm (h2 nd anc)
  · rename_i m h
    split at h
    · rename_i nd anc hnm
      simp only [Option.some.injEq] at h
      rw [← h, S_ISDIR_st_mode, hnm]
      simp
    · simp at h

/-- The paths of the result are the chains that `ScanFinds` describes. -/
theorem mem_collect_iff (is_maildir : String → Bool) (fs : FS)
    (hIm : ∀ p, is_maildir p = true → is_directory fs p = true) :
    ∀ (fuel : Nat) (pfx : String), pfx ≠ "" → NulFree pfx →
      ∀ w x es anc, namei fs pfx = some (Node.dir true w x es :: anc) → entriesWf es = true →
      (Node.dir true w x es).height ≤ fuel →
      ∀ p, p ∈ collect is_maildir fs fuel pfx ↔
        ∃ names, p = joinPath pfx names ∧ ScanFinds is_maildir fs pfx (Node.dir true w x es) names := by
  intro fuel
  induction fuel with
  | zero =>
    intro pfx _ _ w x es anc _ _ hh
    simp [Node.height] at hh
  | succ fuel ih =>
    intro pfx hP hN w x es anc hnm hwf hh p
    have hd : dirStream fs (c_str pfx) = some (streamOf es) := by
      rw [c_str_of_nulFree hN]
      simp [dirStream, hnm]
    rw [mem_collect_succ hd]
    constructor
    · rintro (⟨hm, rfl⟩ | ⟨de, hde, hmem⟩)
      · exact ⟨[], rfl, hm⟩
      · obtain ⟨h1, h2, _, hcase⟩ := mem_contrib.mp hmem
        obtain ⟨nd, hent⟩ := mem_streamOf hde h1 h2
        have hv := mem_entries_valid hwf hent
        have hf := findEntry_of_mem hwf hent
        have hch := dirStream_child hP hN hnm hv
        rcases hcase with ⟨hm, rfl⟩ | ⟨hm, hopen, hrec⟩
        · refine ⟨[de.d_name], rfl, nd, hf, ?_, by simpa using hm⟩
          obtain ⟨c, anc1, hnm1, hdir⟩ := (is_directory_iff fs _).mp (hIm _ hm)
          rw [hch, hf] at hnm1
          cases x with
          | false => simp at hnm1
          | true =>
            simp only [if_true, Option.map_some', Option.some.injEq, List.cons.injEq] at hnm1
            rw [hnm1.1]
            exact hdir
        · obtain ⟨w1, x1, es1, hf1, hnm1, hwf1, hlt⟩ := child_step hP hN hnm hwf hv hopen
          have hh1 : (Node.dir true w1 x1 es1).height ≤ fuel := by omega
          obtain ⟨names, rfl, hsf⟩ := (ih _ (child_ne_empty _ _) (nulFree_child hN hv)
            w1 x1 es1 _ hnm1 hwf1 hh1 p).mp hrec
          have hne : names ≠ [] := by
            intro e
            subst e
            simp only [ScanFinds] at hsf
            rw [hm] at hsf
            exact absurd hsf (by simp)
          refine ⟨de.d_name :: names, rfl, Node.dir true w1 x1 es1, hf1, rfl, ?_⟩
          rw [if_neg hne]
          rw [c_str_of_nulFree (nulFree_child hN hv)] at hopen
          exact ⟨hm, hopen, hsf⟩
    · rintro ⟨names, rfl, hsf⟩
      cases names with
      | nil => exact Or.inl ⟨hsf, rfl⟩
      | cons n ns =>
        right
        obtain ⟨c, hf, hdir, hrest⟩ := hsf
        obtain ⟨hv, _, _, t, hent, hfit⟩ := findEntry_wf hwf hf
        have hvs := validName_spec hv
        have htype : t = DT_UNKNOWN ∨ t = DT_DIR := by
          cases c with
          | file => simp [Node.isDir] at hdir
          | dir r1 w1 x1 es1 => simpa [typeFits] using hfit
        refine ⟨⟨n, t⟩, ?_, ?_⟩
        · simp only [streamOf, List.mem_cons, List.mem_map]
          exact Or.inr (Or.inr ⟨(n, t, c), hent, rfl⟩)
        · rw [mem_contrib]
          refine ⟨hvs.2.1, hvs.2.2.1, htype, ?_⟩
          by_cases hns : ns = []
          · subst hns
            left
            exact ⟨by simpa using hrest, rfl⟩
          · right
            rw [if_neg hns] at hrest
            obtain ⟨hm, hopen, hsf1⟩ := hrest
            have hopen1 : (dirStream fs (c_str (pfx ++ "/" ++ n))).isSome = true := by
              rw [c_str_of_nulFree (nulFree_child hN hv)]
              exact hopen
            obtain ⟨w1, x1, es1, hf1, hnm1, hwf1, hlt⟩ := child_step hP hN hnm hwf hv hopen1
            have hh1 : (Node.dir true w1 x1 es1).height ≤ fuel := by omega
            have hc : c = Node.dir true w1 x1 es1 := by
              rw [hf] at hf1
              exact Option.some.inj hf1
            rw [hc] at hsf1
            exact ⟨hm, hopen1, (ih _ (child_ne_empty _ _) (nulFree_child hN hv)
              w1 x1 es1 _ hnm1 hwf1 hh1 _).mpr ⟨ns, rfl, hsf1⟩⟩

/-- The relation `ScanFinds`, spelled out position by position. -/
theorem scanFinds_iff (is_maildir : String → Bool) (fs : FS) :
    ∀ (names : List String) (root : String) (top : Node), top.isDir = true →
      (ScanFinds is_maildir fs root top names ↔
        (∃ nd, descend top names = some nd ∧ nd.isDir = true) ∧
        is_maildir (joinPath root names) = true ∧
        ∀ k, 0 < k → k < names.length →
          is_maildir (joinPath root (names.take k)) = false ∧
          (dirStream fs (joinPath root (names.take k))).isSome = true) := by
  intro names
  induction names with
  | nil =>
    intro root top htop
    simp [ScanFinds, descend, joinPath, htop]
  | cons n ns ih =>
    intro root top htop
    cases top with
    | file => simp [Node.isDir] at htop
    | dir r w x es =>
      simp only [ScanFinds, descend, joinPath, List.length_cons]
      constructor
      · rintro ⟨c, hf, hdir, hrest⟩
        by_cases hns : ns = []
        · subst hns
          rw [if_pos rfl] at hrest
          refine ⟨⟨c, by simp [hf, descend], hdir⟩, by simpa [joinPath] using hrest, ?_⟩
          intro k h0 h1
          simp only [List.length_nil] at h1
          omega
        · rw [if_neg hns] at hrest
          obtain ⟨hm, hopen, hsf⟩ := hrest
          obtain ⟨⟨nd, hdesc, hnd⟩, hmail, hall⟩ := (ih (root ++ "/" ++ n) c hdir).mp hsf
          refine ⟨⟨nd, by simp [hf, hdesc], hnd⟩, hmail, ?_⟩
          intro k h0 h1
          obtain ⟨j, rfl⟩ : ∃ j, k = j + 1 := ⟨k - 1, by omega⟩
          simp only [List.take_succ_cons, joinPath]
          cases j with
          | zero => simpa [joinPath] using ⟨hm, hopen⟩
          | succ i => exact hall (i + 1) (by omega) (by omega)
      · rintro ⟨⟨nd, hdesc, hnd⟩, hmail, hall⟩
        cases hf : findEntry n es with
        | none => simp [hf] at hdesc
        | some c =>
          simp only [hf] at hdesc
          by_cases hns : ns = []
          · subst hns
            simp only [descend, Option.some.injEq] at hdesc
            refine ⟨c, rfl, by rw [hdesc]; exact hnd, ?_⟩
            rw [if_pos rfl]
            simpa [joinPath] using hmail
          · have hcdir : c.isDir = true := by
              cases c with
              | file =>
                cases ns with
                | nil => exact absurd rfl hns
                | cons a b => simp [descend] at hdesc
              | dir _ _ _ _ => rfl
            refine ⟨c, rfl, hcdir, ?_⟩
            rw [if_neg hns]
            have h1 := hall 1 (by omega)
              (by
                cases ns with
                | nil => exact absurd rfl hns
                | cons a b => simp)
            simp only [List.take_succ_cons, List.take_zero, joinPath] at h1
            refine ⟨h1.1, h1.2, (ih (root ++ "/" ++ n) c hcdir).mpr ⟨⟨nd, hdesc, hnd⟩, hmail, ?_⟩⟩
            intro k h0 hk
            have := hall (k + 1) (by omega) (by omega)
            simpa only [List.take_succ_cons, joinPath] using this

theorem descend_valid : ∀ (names : List String) (top nd : Node), top.wf = true →
    descend top names = some nd → ∀ n ∈ names, validName n = true := by
  intro names
  induction names with
  | nil => intro _ _ _ _ n hn; simp at hn
  | cons a as ih =>
    intro top nd hwf hdesc n hn
    cases top with
    | file => simp [descend] at hdesc
    | dir r w x es =>
      simp only [descend] at hdesc
      cases hf : findEntry a es with
      | none => simp [hf] at hdesc
      | some c =>
        simp only [hf] at hdesc
        obtain ⟨hv, hcw, _, _⟩ := findEntry_wf (by simpa [Node.wf] using hwf) hf
        rcases List.mem_cons.mp hn with rfl | hn
        · exact hv
        · exact ih c nd hcw hdesc n hn

theorem collect_sorted (is_maildir : String → Bool) (fs : FS) (fuel : Nat) (pfx : String) :
    (collect is_maildir fs fuel pfx).Sorted str_le := by
  cases fuel with
  | zero => simp [collect]
  | succ fuel =>
    simp only [collect]
    split
    · simp
    · exact std_sort_sorted _

theorem CMaildir_is_maildir_dir (fs : FS) (p : String)
    (h : CMaildir_is_maildir fs p = true) : is_directory fs p = true := by
  simp only [CMaildir_is_maildir, Bool.and_eq_true] at h
  exact h.1.1.1

/-! ## Mailbox discovery: the claims -/

/-- C1, as stated, fails in the scenario of the specification: `/m/inbox/archive`
is a mailbox beneath `/m`, and `get_all_maildirs "/m"`, with more fuel than the
tree is high, returns `/m/inbox` alone. -/
theorem get_all_maildirs_misses_nested :
    scenarioFS.top.wf = true ∧ scenarioFS.top.height < 6 ∧
    CMaildir_is_maildir scenarioFS "/m" = false ∧
    CMaildir_is_maildir scenarioFS "/m/inbox" = true ∧
    CMaildir_is_maildir scenarioFS "/m/inbox/archive" = true ∧
    get_all_maildirs (CMaildir_is_maildir scenarioFS) scenarioFS 6 "/m" [] =
      some (["/m/inbox"], []) ∧
    get_all_maildirs (CMaildir_is_maildir scenarioFS) scenarioFS 6 "/m" [] ≠
      some (["/m/inbox", "/m/inbox/archive"], []) := by
  decide

theorem lookupFrom_nulFree {H : Nat} {s s1 : List Node} {cs : List String}
    (hs : GoodStack H s) (h : lookupFrom s cs = some s1) : ∀ c ∈ cs, NulFree c := by
  induction cs generalizing s with
  | nil => intro c hc; simp at hc
  | cons a as ih =>
    simp only [lookupFrom] at h
    cases hstep : lookupStep s a with
    | none => simp [hstep] at h
    | some s2 =>
      simp only [hstep] at h
      intro c hc
      rcases List.mem_cons.mp hc with rfl | hc
      · unfold lookupStep at hstep
        split at hstep
        · simp at hstep
        · simp at hstep
        · rename_i r w x es rest
          split at hstep
          · rename_i hc0
            rw [hc0]
            decide
          · split at hstep
            · simp at hstep
            · split at hstep
              · rename_i hc1
                rw [hc1]
                decide
              · split at hstep
                · rename_i hc2
                  rw [hc2]
                  decide
                · split at hstep
                  · simp at hstep
                  · rename_i nd hfind
                    have hw : entriesWf es = true := by
                      simpa [Node.wf] using (hs (Node.dir r w x es) (by simp)).1
                    exact (validName_spec (findEntry_wf hw hfind).1).2.2.2.2
      · exact ih (lookupStep_good hs hstep) h c hc

theorem splitSlash_nul (l : List Char) (h : ∀ c ∈ splitSlash l, '\x00' ∉ c) : '\x00' ∉ l := by
  induction l with
  | nil => simp
  | cons a as ih =>
    simp only [splitSlash] at h
    by_cases ha : a = '/'
    · simp only [ha, if_true, List.mem_cons, forall_eq_or_imp] at h
      intro hm
      rcases List.mem_cons.mp hm with e | e
      · rw [ha] at e
        exact absurd e (by decide)
      · exact ih h.2 e
    · simp only [ha, if_false] at h
      cases hsp : splitSlash as with
      | nil => exact absurd hsp (splitSlash_ne_nil as)
      | cons b t =>
        simp only [hsp, List.mem_cons, forall_eq_or_imp] at h
        have hb : ¬ ('\x00' = a ∨ '\x00' ∈ b) := h.1
        intro hm
        rcases List.mem_cons.mp hm with e | e
        · exact hb (Or.inl e)
        · refine ih ?_ e
          intro c hc
          rw [hsp] at hc
          rcases List.mem_cons.mp hc with rfl | hc
          · exact fun hx => hb (Or.inr hx)
          · exact h.2 c hc

/-- A path that names something in a well-formed tree is a C string. -/
theorem nulFree_of_namei {fs : FS} (hwf : fs.top.wf = true) {p : String} {s : List Node}
    (h : namei fs p = some s) : NulFree p := by
  have h0 : GoodStack fs.top.height [fs.top] := by
    intro nd hnd
    simp only [List.mem_singleton] at hnd
    subst hnd
    exact ⟨hwf, le_refl _⟩
  have key : ∀ (st : List Node) (l : List Char), GoodStack fs.top.height st →
      lookupFrom st ((splitSlash l).map String.mk) = some s → '\x00' ∉ l := by
    intro st l hst hl
    apply splitSlash_nul
    intro c hc
    exact lookupFrom_nulFree hst hl ⟨c⟩ (List.mem_map.mpr ⟨c, hc, rfl⟩)
  unfold NulFree
  unfold namei at h
  split at h
  · simp at h
  · rename_i c cs hd
    rw [hd]
    simp only at h
    split at h
    · exact key _ _ h0 h
    · cases hc : lookupFrom [fs.top] fs.cwd with
      | none => simp [hc] at h
      | some st =>
        simp only [hc] at h
        exact key _ _ (lookupFrom_good h0 hc) h

theorem nulFree_of_open {fs : FS} (hwf : fs.top.wf = true) {root : String}
    (hopen : (dirStream fs root).isSome = true) : NulFree root := by
  obtain ⟨des, hdes⟩ := Option.isSome_iff_exists.mp hopen
  obtain ⟨w, x, es, anc, hnm, _⟩ := dirStream_some hdes
  exact nulFree_of_namei hwf hnm

theorem ne_empty_of_open {fs : FS} {root : String}
    (hopen : (dirStream fs root).isSome = true) : root ≠ "" := by
  intro h
  subst h
  simp [dirStream, namei] at hopen

/-- The node of a readable root, with what the scan needs to know of it. -/
theorem readable_root {fs : FS} (hwf : fs.top.wf = true) {root : String}
    (hopen : (dirStream fs root).isSome = true) :
    ∃ w x es anc, namei fs root = some (Node.dir true w x es :: anc) ∧ entriesWf es = true ∧
      (Node.dir true w x es).height ≤ fs.top.height := by
  obtain ⟨des, hdes⟩ := Option.isSome_iff_exists.mp hopen
  obtain ⟨w, x, es, anc, hnm, _⟩ := dirStream_some hdes
  have hg := namei_good hwf hnm _ (List.mem_cons_self _ _)
  exact ⟨w, x, es, anc, hnm, by simpa [Node.wf] using hg.1, hg.2⟩

/-- C1 (amended): on a readable root, `get_all_maildirs` returns, and its result
holds exactly the paths `root/n1/.../nk` (`k ≥ 0`) of directories at or beneath
`root` that are mailboxes and are reached from `root` through directories that
can be opened and, strictly between `root` and the path, are not mailboxes. -/
theorem get_all_maildirs_exact (is_maildir : String → Bool) (fs : FS)
    (hwf : fs.top.wf = true)
    (hIm : ∀ p, is_maildir p = true → is_directory fs p = true)
    (root : String) (hopen : (dirStream fs root).isSome = true)
    (fuel : Nat) (hfuel : fs.top.height ≤ fuel) (hs : Handles) :
    ∃ res top anc, get_all_maildirs is_maildir fs (fuel + 1) root hs = some (res, hs) ∧
      namei fs root = some (top :: anc) ∧
      ∀ p, p ∈ res ↔
        ∃ names nd, p = joinPath root names ∧ descend top names = some nd ∧ nd.isDir = true ∧
          is_maildir p = true ∧
          ∀ k, 0 < k → k < names.length →
            is_maildir (joinPath root (names.take k)) = false ∧
            (dirStream fs (joinPath root (names.take k))).isSome = true := by
  have hne := ne_empty_of_open hopen
  have hnul := nulFree_of_open hwf hopen
  obtain ⟨w, x, es, anc, hnm, hes, hh⟩ := readable_root hwf hopen
  refine ⟨_, Node.dir true w x es, anc, get_all_maildirs_top is_maildir fs hwf fuel hfuel root hs,
    hnm, ?_⟩
  intro p
  rw [normPrefix_of_nulFree hnul hne,
    mem_collect_iff is_maildir fs hIm (fuel + 1) root hne hnul w x es anc hnm hes (by omega) p]
  constructor
  · rintro ⟨names, rfl, hsf⟩
    obtain ⟨⟨nd, hd, hnd⟩, hm, hall⟩ := (scanFinds_iff is_maildir fs names root (Node.dir true w x es) rfl).mp hsf
    exact ⟨names, nd, rfl, hd, hnd, hm, hall⟩
  · rintro ⟨names, nd, rfl, hd, hnd, hm, hall⟩
    exact ⟨names, rfl, (scanFinds_iff is_maildir fs names root (Node.dir true w x es) rfl).mpr ⟨⟨nd, hd, hnd⟩, hm, hall⟩⟩

/-- C1 (amended), at the root `/m` of the larger tree. -/
theorem get_all_maildirs_exact_witness :
    sampleFS.top.wf = true ∧ (dirStream sampleFS "/m").isSome = true ∧
    ∃ res top anc,
      get_all_maildirs (CMaildir_is_maildir sampleFS) sampleFS 6 "/m" [] = some (res, []) ∧
      namei sampleFS "/m" = some (top :: anc) ∧
      ∀ p, p ∈ res ↔
        ∃ names nd, p = joinPath "/m" names ∧ descend top names = some nd ∧ nd.isDir = true ∧
          CMaildir_is_maildir sampleFS p = true ∧
          ∀ k, 0 < k → k < names.length →
            CMaildir_is_maildir sampleFS (joinPath "/m" (names.take k)) = false ∧
            (dirStream sampleFS (joinPath "/m" (names.take k))).isSome = true :=
  ⟨by decide, by decide,
    get_all_maildirs_exact (CMaildir_is_maildir sampleFS) sampleFS (by decide)
      (CMaildir_is_maildir_dir sampleFS) "/m" (by decide) 5 (by decide) []⟩

/-- C2: on every root, `get_all_maildirs` returns a sequence that is strictly
ascending in the order of `std::string`: it is sorted and no path occurs twice. -/
theorem get_all_maildirs_strictly_ascending (is_maildir : String → Bool) (fs : FS)
    (hwf : fs.top.wf = true) (root : String) (fuel : Nat) (hfuel : fs.top.height ≤ fuel)
    (hs : Handles) :
    ∃ res, get_all_maildirs is_maildir fs (fuel + 1) root hs = some (res, hs) ∧
      res.Pairwise (fun a b => str_lt a b = true) := by
  refine ⟨_, get_all_maildirs_top is_maildir fs hwf fuel hfuel root hs, ?_⟩
  apply strict_of_sorted_nodup (collect_sorted _ _ _ _)
  by_cases hP : normPrefix root = ""
  · have hnone : dirStream fs (c_str (normPrefix root)) = none := by
      rw [hP]
      rfl
    simp [collect, hnone]
  · exact collect_nodup is_maildir fs _ _ hP (nulFree_normPrefix root)
      (fun nd anc hnm => (namei_good hwf hnm nd (by simp)).1)

/-- C2, at the root `/m` of the larger tree. -/
theorem get_all_maildirs_strictly_ascending_witness :
    sampleFS.top.wf = true ∧
    ∃ res, get_all_maildirs (CMaildir_is_maildir sampleFS) sampleFS 6 "/m" [] = some (res, []) ∧
      res.Pairwise (fun a b => str_lt a b = true) :=
  ⟨by decide,
    get_all_maildirs_strictly_ascending (CMaildir_is_maildir sampleFS) sampleFS (by decide) "/m" 5
      (by decide) []⟩

/-- C3, as stated, fails on the empty root: `opendir ("")` fails, but the code
scans `.` instead, and in the scenario it returns `./m/inbox`. -/
theorem get_all_maildirs_empty_root :
    scenarioFS.top.wf = true ∧ scenarioFS.top.height < 6 ∧
    (opendir scenarioFS (c_str "") []).1 = none ∧
    get_all_maildirs (CMaildir_is_maildir scenarioFS) scenarioFS 6 "" [] =
      some (["./m/inbox"], []) := by
  decide

/-- C3 (amended): when `opendir` fails on the path the code opens, which is
`root`, or `.` when `root` is empty, `get_all_maildirs` returns the empty
sequence and leaves the handles as they were, whatever `is_maildir` answers. -/
theorem get_all_maildirs_unopenable (is_maildir : String → Bool) (fs : FS) (fuel : Nat)
    (root : String) (hs : Handles)
    (hfail : (opendir fs (c_str (if root = "" then "." else root)) hs).1 = none) :
    get_all_maildirs is_maildir fs (fuel + 1) root hs = some ([], hs) := by
  have he : c_str (normPrefix root) = c_str (if root = "" then "." else root) := by
    unfold normPrefix
    split
    · rfl
    · exact c_str_c_str root
  rw [get_all_maildirs_succ, he]
  cases hd : dirStream fs (c_str (if root = "" then "." else root)) with
  | none => rw [opendir_none hd]
  | some des =>
    rw [opendir_some hd] at hfail
    simp at hfail

/-- C3 (amended), at `/m/private` of the larger tree, a mailbox without read
permission: `is_maildir` answers `true`, `opendir` fails, the result is empty. -/
theorem get_all_maildirs_unopenable_witness :
    CMaildir_is_maildir sampleFS "/m/private" = true ∧
    (opendir sampleFS (c_str "/m/private") [7]).1 = none ∧
    get_all_maildirs (CMaildir_is_maildir sampleFS) sampleFS 6 "/m/private" [7] =
      some ([], [7]) :=
  ⟨by decide, by decide,
    get_all_maildirs_unopenable (CMaildir_is_maildir sampleFS) sampleFS 5 "/m/private" [7]
      (by decide)⟩

/-- C5, as stated, fails on a root with an embedded NUL: the code opens and
reports the root cut at the NUL.  In the scenario, on the root `/m` followed by
a NUL and `junk`, the result is `/m/inbox`, which is not the root and does not
start with the root and a slash. -/
theorem get_all_maildirs_cuts_root :
    "/m\x00junk" ≠ "" ∧ scenarioFS.top.wf = true ∧ scenarioFS.top.height < 6 ∧
    get_all_maildirs (CMaildir_is_maildir scenarioFS) scenarioFS 6 "/m\x00junk" [] =
      some (["/m/inbox"], []) ∧
    "/m/inbox" ≠ "/m\x00junk" ∧
    ("/m\x00junk" ++ "/").data.isPrefixOf "/m/inbox".data = false := by
  decide

/-- C5 (amended): on a non-empty root, every path in the result of
`get_all_maildirs` is a mailbox and is `r/n1/.../nk` for a chain of names
(`k = 0` gives `r` itself) that leads from the directory of `r` to a directory,
none of the names being `.` or `..`; here `r` is the root cut at its first NUL,
the C string that the code opens, which is the root itself when the root holds
no NUL. -/
theorem get_all_maildirs_sound (is_maildir : String → Bool) (fs : FS)
    (hwf : fs.top.wf = true)
    (hIm : ∀ p, is_maildir p = true → is_directory fs p = true)
    (root : String) (hne : root ≠ "")
    (fuel : Nat) (hfuel : fs.top.height ≤ fuel) (hs : Handles) :
    (NulFree root → c_str root = root) ∧
    ∃ res, get_all_maildirs is_maildir fs (fuel + 1) root hs = some (res, hs) ∧
      ∀ p ∈ res, is_maildir p = true ∧
        ∃ names, p = joinPath (c_str root) names ∧ (∀ n ∈ names, n ≠ "." ∧ n ≠ "..") ∧
          ∃ top anc nd, namei fs (c_str root) = some (top :: anc) ∧
            descend top names = some nd ∧ nd.isDir = true := by
  refine ⟨fun h => c_str_of_nulFree h, _,
    get_all_maildirs_top is_maildir fs hwf fuel hfuel root hs, ?_⟩
  intro p hp
  have hnp : normPrefix root = c_str root := by simp [normPrefix, hne]
  rw [hnp] at hp
  have hnul := nulFree_c_str root
  cases hd : dirStream fs (c_str root) with
  | none =>
    have hd1 : dirStream fs (c_str (c_str root)) = none := by rw [c_str_c_str]; exact hd
    simp [collect, hd1] at hp
  | some des =>
    have hopen : (dirStream fs (c_str root)).isSome = true := by simp [hd]
    have hneP := ne_empty_of_open hopen
    obtain ⟨w, x, es, anc, hnm, hes, hh⟩ := readable_root hwf hopen
    rw [mem_collect_iff is_maildir fs hIm (fuel + 1) (c_str root) hneP hnul w x es anc hnm hes
      (by omega)] at hp
    obtain ⟨names, rfl, hsf⟩ := hp
    obtain ⟨⟨nd, hdesc, hnd⟩, hm, _⟩ :=
      (scanFinds_iff is_maildir fs names (c_str root) (Node.dir true w x es) rfl).mp hsf
    have hvalid := descend_valid names _ nd (by simpa [Node.wf] using hes) hdesc
    refine ⟨hm, names, rfl, ?_, Node.dir true w x es, anc, nd, hnm, hdesc, hnd⟩
    intro n hn
    have hv := validName_spec (hvalid n hn)
    exact ⟨hv.2.1, hv.2.2.1⟩

/-- C5 (amended), in the larger tree at the root `/m` followed by a NUL and
`junk`, which is cut to `/m`, and at the root `/m` itself. -/
theorem get_all_maildirs_sound_witness :
    (sampleFS.top.wf = true ∧ c_str "/m\x00junk" = "/m" ∧
      ∃ res, get_all_maildirs (CMaildir_is_maildir sampleFS) sampleFS 6 "/m\x00junk" [] =
          some (res, []) ∧
        ∀ p ∈ res, CMaildir_is_maildir sampleFS p = true ∧
          ∃ names, p = joinPath (c_str "/m\x00junk") names ∧
            (∀ n ∈ names, n ≠ "." ∧ n ≠ "..") ∧
            ∃ top anc nd, namei sampleFS (c_str "/m\x00junk") = some (top :: anc) ∧
              descend top names = some nd ∧ nd.isDir = true) ∧
    (c_str "/m" = "/m" ∧
      ∃ res, get_all_maildirs (CMaildir_is_maildir sampleFS) sampleFS 6 "/m" [] = some (res, []) ∧
        ∀ p ∈ res, CMaildir_is_maildir sampleFS p = true ∧
          ∃ names, p = joinPath (c_str "/m") names ∧ (∀ n ∈ names, n ≠ "." ∧ n ≠ "..") ∧
            ∃ top anc nd, namei sampleFS (c_str "/m") = some (top :: anc) ∧
              descend top names = some nd ∧ nd.isDir = true) :=
  ⟨⟨by decide, by decide,
      (get_all_maildirs_sound (CMaildir_is_maildir sampleFS) sampleFS (by decide)
        (CMaildir_is_maildir_dir sampleFS) "/m\x00junk" (by decide) 5 (by decide) []).2⟩,
    ⟨(get_all_maildirs_sound (CMaildir_is_maildir sampleFS) sampleFS (by decide)
        (CMaildir_is_maildir_dir sampleFS) "/m" (by decide) 5 (by decide) []).1 (by decide),
      (get_all_maildirs_sound (CMaildir_is_maildir sampleFS) sampleFS (by decide)
        (CMaildir_is_maildir_dir sampleFS) "/m" (by decide) 5 (by decide) []).2⟩⟩

/-! ## Directory handles -/

theorem scan_entries_frame (is_maildir : String → Bool) (fs : FS)
    (recurse : String → Handles → Option (List String × Handles)) (pfx : String)
    (hrec : ∀ sp hs r hs1, recurse sp hs = some (r, hs1) → hs1 = hs) :
    ∀ (des : List dirent) (result : List String) (hs : Handles) (r : List String)
      (hs1 : Handles),
      scan_entries is_maildir fs recurse pfx des result hs = some (r, hs1) → hs1 = hs := by
  intro des
  induction des with
  | nil =>
    intro result hs r hs1 h
    simp only [scan_entries, Option.some.injEq, Prod.mk.injEq] at h
    exact h.2.symm
  | cons de rest ih =>
    intro result hs r hs1 h
    simp only [scan_entries] at h
    split at h
    · split at h
      · exact ih _ _ _ _ h
      · split at h
        · cases hd : dirStream fs (c_str (pfx ++ "/" ++ de.d_name)) with
          | none =>
            rw [opendir_none hd] at h
            exact ih _ _ _ _ h
          | some ds =>
            rw [opendir_some hd] at h
            simp only [closedir_fresh] at h
            cases hr : recurse (pfx ++ "/" ++ de.d_name) hs with
            | none => simp [hr] at h
            | some v =>
              obtain ⟨sub, hs2⟩ := v
              simp only [hr] at h
              have e := hrec _ _ _ _ hr
              subst e
              exact ih _ _ _ _ h
        · exact ih _ _ _ _ h
    · exact ih _ _ _ _ h

/-- Whenever `get_all_maildirs` returns, the open handles are those of before. -/
theorem get_all_maildirs_frame (is_maildir : String → Bool) (fs : FS) :
    ∀ (fuel : Nat) (root : String) (hs : Handles) (r : List String) (hs1 : Handles),
      get_all_maildirs is_maildir fs fuel root hs = some (r, hs1) → hs1 = hs := by
  intro fuel
  induction fuel with
  | zero => intro root hs r hs1 h; simp [get_all_maildirs] at h
  | succ fuel ih =>
    intro root hs r hs1 h
    rw [get_all_maildirs_succ] at h
    cases hd : dirStream fs (c_str (normPrefix root)) with
    | none =>
      rw [opendir_none hd] at h
      simp only [Option.some.injEq, Prod.mk.injEq] at h
      exact h.2.symm
    | some des =>
      rw [opendir_some hd] at h
      simp only at h
      split at h
      · simp at h
      · rename_i result1 hs2 hscan
        have e := scan_entries_frame is_maildir fs _ _ ih _ _ _ _ _ hscan
        subst e
        simp only [closedir_fresh, Option.some.injEq, Prod.mk.injEq] at h
        exact h.2.symm

theorem files_loop_eq (fs : FS) (base : String) :
    ∀ (des : List dirent) (results : List String),
      files_loop fs base des results =
        results ++ (des.filter (fun de => decide (de.d_name ≠ "." ∧ de.d_name ≠ "..") &&
          !is_directory fs (base ++ de.d_name))).map (fun de => base ++ de.d_name) := by
  intro des
  induction des with
  | nil => intro results; simp [files_loop]
  | cons de rest ih =>
    intro results
    simp only [files_loop, List.filter_cons]
    by_cases hc : de.d_name ≠ "." ∧ de.d_name ≠ ".."
    · by_cases hdir : is_directory fs (base ++ de.d_name) = true
      · simp [hc, hdir, ih]
      · simp [hc, hdir, ih]
    · simp [hc, ih]

/-- C6: when `get_all_maildirs` or `files_in_directory` returns, the open
directory handles are exactly those of before the call; and the calls do
return: `get_all_maildirs` with the height of the tree as fuel,
`files_in_directory` whenever its `assert` holds. -/
theorem handles_restored (is_maildir : String → Bool) (fs : FS) (fuel : Nat) (path : String)
    (hs : Handles) :
    (∀ res hs1, get_all_maildirs is_maildir fs fuel path hs = some (res, hs1) → hs1 = hs) ∧
    (∀ res hs1, files_in_directory fs path hs = some (res, hs1) → hs1 = hs) ∧
    (fs.top.wf = true → fs.top.height < fuel →
      ∃ res, get_all_maildirs is_maildir fs fuel path hs = some (res, hs)) ∧
    (is_directory fs path = true → ∃ res, files_in_directory fs path hs = some (res, hs)) := by
  have hfiles : ∀ res hs1, files_in_directory fs path hs = some (res, hs1) → hs1 = hs := by
    intro res hs1 h
    unfold files_in_directory at h
    split at h
    · cases hd : dirStream fs (c_str path) with
      | none =>
        rw [opendir_none hd] at h
        simp only [Option.some.injEq, Prod.mk.injEq] at h
        exact h.2.symm
      | some des =>
        rw [opendir_some hd] at h
        simp only [closedir_fresh, Option.some.injEq, Prod.mk.injEq] at h
        exact h.2.symm
    · simp at h
  refine ⟨get_all_maildirs_frame is_maildir fs fuel path hs, hfiles, ?_, ?_⟩
  · intro hwf hfuel
    obtain ⟨f, rfl⟩ : ∃ f, fuel = f + 1 := ⟨fuel - 1, by omega⟩
    exact ⟨_, get_all_maildirs_top is_maildir fs hwf f (by omega) path hs⟩
  · intro hdir
    cases hres : files_in_directory fs path hs with
    | none =>
      unfold files_in_directory at hres
      rw [if_pos hdir] at hres
      split at hres <;> simp at hres
    | some v =>
      obtain ⟨res, hs1⟩ := v
      rw [hfiles res hs1 hres]
      exact ⟨res, rfl⟩

/-- C6, at `/m` of the larger tree with the handles 7 and 3 open. -/
theorem handles_restored_witness :
    (∃ res, get_all_maildirs (CMaildir_is_maildir sampleFS) sampleFS 6 "/m" [7, 3] =
      some (res, [7, 3])) ∧
    (∃ res, files_in_directory sampleFS "/m" [7, 3] = some (res, [7, 3])) :=
  ⟨(handles_restored (CMaildir_is_maildir sampleFS) sampleFS 6 "/m" [7, 3]).2.2.1
      (by decide) (by decide),
    (handles_restored (CMaildir_is_maildir sampleFS) sampleFS 6 "/m" [7, 3]).2.2.2 (by decide)⟩

/-! ## `is_directory` and `files_in_directory` -/

/-- C7: `is_directory` is true iff `stat` succeeds and reports a directory, that
is iff the path resolves to a directory of the tree; when `stat` fails the
answer is `false`. -/
theorem is_directory_spec (fs : FS) (path : String) :
    (is_directory fs path = true ↔
      ∃ m, stat fs (c_str path) = some m ∧ S_ISDIR m = true) ∧
    (stat fs (c_str path) = none → is_directory fs path = false) ∧
    (is_directory fs path = true ↔
      ∃ nd anc, namei fs (c_str path) = some (nd :: anc) ∧ nd.isDir = true) := by
  refine ⟨?_, ?_, is_directory_iff fs path⟩
  · unfold is_directory
    cases stat fs (c_str path) with
    | none => simp
    | some m => simp
  · intro h
    simp [is_directory, h]

/-- C7, at a missing path, at a path through a file and at a path through a
directory without search permission: `stat` fails and the answer is `false`. -/
theorem is_directory_spec_witness :
    (stat sampleFS (c_str "/m/nope") = none ∧ is_directory sampleFS "/m/nope" = false) ∧
    (stat sampleFS (c_str "/m/notes.txt/x") = none ∧
      is_directory sampleFS "/m/notes.txt/x" = false) ∧
    (stat sampleFS (c_str "/m/locked/box") = none ∧
      is_directory sampleFS "/m/locked/box" = false) :=
  ⟨⟨by decide, (is_directory_spec sampleFS "/m/nope").2.1 (by decide)⟩,
    ⟨by decide, (is_directory_spec sampleFS "/m/notes.txt/x").2.1 (by decide)⟩,
    ⟨by decide, (is_directory_spec sampleFS "/m/locked/box").2.1 (by decide)⟩⟩

/-- On a directory that can be opened, `files_in_directory` returns the sorted
list of the paths `path/name` over the entries `name` of the stream that are
not `.`, not `..` and for which `is_directory (path/name)` is false; so
`is_directory` is false of every returned path. -/
theorem files_in_directory_spec (fs : FS) (path : String) (hs : Handles) (des : List dirent)
    (hopen : dirStream fs (c_str path) = some des) :
    files_in_directory fs path hs =
      some (std_sort ((des.filter (fun de => decide (de.d_name ≠ "." ∧ de.d_name ≠ "..") &&
          !is_directory fs (path ++ "/" ++ de.d_name))).map (fun de => path ++ "/" ++ de.d_name)),
        hs) ∧
    (std_sort ((des.filter (fun de => decide (de.d_name ≠ "." ∧ de.d_name ≠ "..") &&
          !is_directory fs (path ++ "/" ++ de.d_name))).map
            (fun de => path ++ "/" ++ de.d_name))).Sorted str_le ∧
    ∀ res hs1, files_in_directory fs path hs = some (res, hs1) →
      ∀ p ∈ res, is_directory fs p = false := by
  have hdir : is_directory fs path = true := by
    obtain ⟨w, x, es, anc, hnm, _⟩ := dirStream_some hopen
    exact (is_directory_iff fs path).mpr ⟨_, _, hnm, rfl⟩
  have heq : files_in_directory fs path hs =
      some (std_sort ((des.filter (fun de => decide (de.d_name ≠ "." ∧ de.d_name ≠ "..") &&
          !is_directory fs (path ++ "/" ++ de.d_name))).map (fun de => path ++ "/" ++ de.d_name)),
        hs) := by
    unfold files_in_directory
    rw [if_pos hdir, opendir_some hopen]
    simp [closedir_fresh, files_loop_eq]
  refine ⟨heq, std_sort_sorted _, ?_⟩
  intro res hs1 h p hp
  rw [heq] at h
  simp only [Option.some.injEq, Prod.mk.injEq] at h
  rw [← h.1, mem_std_sort, List.mem_map] at hp
  obtain ⟨de, hde, rfl⟩ := hp
  have := (List.mem_filter.mp hde).2
  simp only [Bool.and_eq_true, Bool.not_eq_true'] at this
  exact this.2

/-- At `/m` of the larger tree the only entry for which `is_directory` is false
is the file `notes.txt`. -/
theorem files_in_directory_spec_witness :
    (dirStream sampleFS (c_str "/m")).isSome = true ∧
    files_in_directory sampleFS "/m" [] = some (["/m/notes.txt"], []) :=
  ⟨by decide, (files_in_directory_spec sampleFS "/m" [] _ rfl).1.trans (by decide)⟩

/-- C9, the defect: `/m/locked` of the larger tree can be read but not searched,
so `stat` fails on its entry `box`, `is_directory` answers `false` for it, and
`files_in_directory` returns `/m/locked/box`, which is a directory; the same
with a trailing slash. -/
theorem files_in_directory_returns_directory :
    is_directory sampleFS "/m/locked" = true ∧
    (dirStream sampleFS (c_str "/m/locked")).isSome = true ∧
    files_in_directory sampleFS "/m/locked" [] = some (["/m/locked/box"], []) ∧
    stat sampleFS (c_str "/m/locked/box") = none ∧
    is_directory sampleFS "/m/locked/box" = false ∧
    (descend sampleFS.top ["m", "locked", "box"]).map Node.isDir = some true ∧
    files_in_directory sampleFS "/m/locked/" [] = some (["/m/locked//box"], []) := by
  decide

/-! ## `basename` -/

theorem find_last_of_chars_none {set l : List Char} (h : find_last_of_chars set l = none) :
    ∀ c ∈ l, c ∉ set := by
  induction l with
  | nil => intro c hc; simp at hc
  | cons a as ih =>
    simp only [find_last_of_chars] at h
    cases hr : find_last_of_chars set as with
    | some i => simp [hr] at h
    | none =>
      simp only [hr] at h
      have ha : a ∉ set := by
        intro hm
        simp [hm] at h
      intro c hc
      rcases List.mem_cons.mp hc with rfl | hc
      · exact ha
      · exact ih hr c hc

theorem find_last_of_chars_some {set l : List Char} {i : Nat}
    (h : find_last_of_chars set l = some i) :
    ∃ c, c ∈ set ∧ l = l.take i ++ c :: l.drop (i + 1) ∧ ∀ d ∈ l.drop (i + 1), d ∉ set := by
  induction l generalizing i with
  | nil => simp [find_last_of_chars] at h
  | cons a as ih =>
    simp only [find_last_of_chars] at h
    cases hr : find_last_of_chars set as with
    | some j =>
      simp only [hr, Option.some.injEq] at h
      subst h
      obtain ⟨c, hc, hsplit, hrest⟩ := ih hr
      refine ⟨c, hc, ?_, by simpa using hrest⟩
      simp only [List.take_succ_cons, List.drop_succ_cons, List.cons_append, List.cons.injEq,
        true_and]
      exact hsplit
    | none =>
      simp only [hr] at h
      by_cases ha : a ∈ set
      · simp only [ha, if_true, Option.some.injEq] at h
        subst h
        exact ⟨a, ha, by simp, by simpa using find_last_of_chars_none hr⟩
      · simp [ha] at h

/-- C10: `basename` returns a string without a slash that is the end of the
path; what stands before it is empty when the path has no slash and ends with
a slash otherwise; `basename` of the result is the result; and the result is
empty exactly when the path is empty or ends with a slash. -/
theorem basename_spec (path : String) :
    ∃ b, basename path = some b ∧ '/' ∉ b.data ∧
      (∃ pre : String, path = pre ++ b ∧
        (if '/' ∈ path.data then pre.data.getLast? = some '/' else pre = "")) ∧
      basename b = some b ∧
      (b = "" ↔ (path = "" ∨ path.data.getLast? = some '/')) := by
  have hidem : ∀ b : String, '/' ∉ b.data → basename b = some b := by
    intro b hb
    have : find_last_of b "/" = none := by
      unfold find_last_of
      cases hr : find_last_of_chars "/".data b.data with
      | none => rfl
      | some i =>
        obtain ⟨c, hc, hsplit, _⟩ := find_last_of_chars_some hr
        have hc1 : c = '/' := by simpa using hc
        exfalso
        apply hb
        rw [hsplit, hc1]
        simp
    simp [basename, this]
  cases hr : find_last_of_chars "/".data path.data with
  | none =>
    have hno : '/' ∉ path.data := fun hm => find_last_of_chars_none hr _ hm (by simp)
    refine ⟨path, by simp [basename, find_last_of, hr], hno, ⟨"", by simp, by simp [hno]⟩,
      hidem path hno, ?_⟩
    constructor
    · intro h
      exact Or.inl h
    · rintro (h | h)
      · exact h
      · exact absurd (List.mem_of_getLast?_eq_some h) hno
  | some i =>
    obtain ⟨c, hc, hsplit, hrest⟩ := find_last_of_chars_some hr
    have hc1 : c = '/' := by simpa using hc
    subst hc1
    have hlen : i + 1 ≤ path.data.length := by
      have := congrArg List.length hsplit
      simp only [List.length_append, List.length_cons, List.length_take, List.length_drop] at this
      omega
    have hb : '/' ∉ path.data.drop (i + 1) := fun hm => hrest _ hm (by simp)
    have hin : '/' ∈ path.data := by
      rw [hsplit]
      simp
    refine ⟨⟨path.data.drop (i + 1)⟩,
      by simp only [basename, find_last_of, hr, substr, if_pos hlen], hb,
      ⟨⟨path.data.take i ++ ['/']⟩, ?_, ?_⟩, hidem _ hb, ?_⟩
    · apply String.ext
      simp only [String.data_append, List.append_assoc, List.singleton_append]
      exact hsplit
    · simp [hin]
    · have hpd : path.data = (path.data.take i ++ ['/']) ++ path.data.drop (i + 1) := by
        simpa using hsplit
      constructor
      · intro h
        right
        have h0 : path.data.drop (i + 1) = [] := congrArg String.data h
        rw [hpd, h0]
        simp
      · rintro (h | h)
        · rw [h] at hin
          simp at hin
        · apply String.ext
          show path.data.drop (i + 1) = []
          by_contra hne
          rw [hpd, List.getLast?_append_of_ne_nil _ hne] at h
          exact hb (List.mem_of_getLast?_eq_some h)

/-! ## The binding `l_CMessage_flags` -/

/-- With more than one value on the stack the binding raises an error, whatever
the values are: index 1 would have to be a userdata and a string at once. -/
theorem l_CMessage_flags_setter_raises (l : lua_State) (h : 1 < lua_gettop l) :
    ∃ e, l_CMessage_flags l = Except.error e := by
  unfold l_CMessage_flags l_CheckCMessage luaL_checkudata
  cases hv : lua_index l 1 with
  | none => exact ⟨_, rfl⟩
  | some v =>
    cases v with
    | userdata t ptr =>
      by_cases ht : t = "luaL_CMessage"
      · simp only [ht, if_true, gt_iff_lt, h, luaL_checkstring, hv]
        exact ⟨_, rfl⟩
      · simp only [ht, if_false]
        exact ⟨_, rfl⟩
    | nil => exact ⟨_, rfl⟩
    | boolean b => exact ⟨_, rfl⟩
    | number n => exact ⟨_, rfl⟩
    | string s => exact ⟨_, rfl⟩

/-- C8, the defect: called with a message and the flag string `"S"`, the binding
reads the string at index 1, where the message is, and raises the argument
error; `set_flags` is not called and nothing is returned. -/
theorem l_CMessage_flags_with_argument :
    l_CMessage_flags
        ⟨[LuaValue.userdata "luaL_CMessage" 0, LuaValue.string "S"],
          [⟨"cur/1234.host:2,F", []⟩]⟩ =
      Except.error (LuaError.bad_argument 1 "string" "userdata") := by
  rfl

/-- The flags of the specification's message `1234.host:2,S` are `S`, and
setting the flags to `FS` gives the flags `FS`. -/
theorem get_flags_set_flags_example :
    (⟨"cur/1234.host:2,S", []⟩ : CMessage).get_flags = "S" ∧
    ((⟨"cur/1234.host:2,S", []⟩ : CMessage).set_flags "FS").get_flags = "FS" ∧
    ((⟨"new/1234.host", []⟩ : CMessage).set_flags "FS").m_path = "new/1234.host:2,FS" := by
  decide

/-- With the message alone on the stack the binding pushes `get_flags` of the
message and changes no message. -/
theorem l_CMessage_flags_getter (heap : List CMessage) (ptr : Nat) (m : CMessage)
    (hm : heap[ptr]? = some m) :
    l_CMessage_flags ⟨[LuaValue.userdata "luaL_CMessage" ptr], heap⟩ =
      Except.ok ⟨[LuaValue.userdata "luaL_CMessage" ptr, LuaValue.string (c_str m.get_flags)],
        heap⟩ := by
  simp [l_CMessage_flags, l_CheckCMessage, luaL_checkudata, lua_index, lua_gettop, hm,
    lua_pushstring]

/-! ## `delete_file` and `move` -/

theorem unlink_status (fs : FS) (path : String) :
    ((unlink fs path).1 = 0 ∧ (∃ anc, namei fs path = some (Node.file :: anc)) ∧
      (unlink fs path).2 = { fs with top := fs.top.removeAt (canonPath fs path) }) ∨
    ((unlink fs path).1 = -1 ∧ (unlink fs path).2 = fs) := by
  unfold unlink
  split
  · rename_i h
    exact Or.inl ⟨rfl, ⟨_, h⟩, rfl⟩
  · exact Or.inr ⟨rfl, rfl⟩

theorem chain_lookupStep {top : Node} {s s1 : List Node} {ns : List String} {c : String}
    (hch : Chain top s ns) (h : lookupStep s c = some s1) : Chain top s1 (canonStep ns c) := by
  unfold lookupStep at h
  unfold canonStep
  split at h
  · simp at h
  · simp at h
  · rename_i r w x es rest
    split at h
    · rename_i hc0
      simp only [Option.some.injEq] at h
      subst h
      simpa [hc0] using hch
    · rename_i hc0
      split at h
      · simp at h
      · split at h
        · rename_i hc
          simp only [Option.some.injEq] at h
          subst h
          simpa [hc] using hch
        · rename_i hc
          have hor : ¬ (c = "" ∨ c = ".") := by simp [hc0, hc]
          split at h
          · rename_i hc2
            simp only [hor, hc2, if_false, if_true]
            split at h
            · simp only [Option.some.injEq] at h
              subst h
              cases hch with
              | base => exact Chain.base
            · simp only [Option.some.injEq] at h
              subst h
              cases hch with
              | step hprev _ => exact hprev
          · rename_i hc2
            simp only [hor, hc2, if_false]
            split at h
            · simp at h
            · rename_i nd hfind
              simp only [Option.some.injEq] at h
              subst h
              exact Chain.step hch hfind

theorem chain_lookupFrom {top : Node} {s s1 : List Node} {ns : List String} {cs : List String}
    (hch : Chain top s ns) (h : lookupFrom s cs = some s1) :
    Chain top s1 (canonFrom ns cs) := by
  induction cs generalizing s ns with
  | nil =>
    simp only [lookupFrom, Option.some.injEq] at h
    subst h
    exact hch
  | cons c cs ih =>
    simp only [lookupFrom] at h
    cases hstep : lookupStep s c with
    | none => simp [hstep] at h
    | some s2 =>
      simp only [hstep] at h
      exact ih (chain_lookupStep hch hstep) h

/-- What `namei` finds lies at the place `canonPath` names. -/
theorem chain_namei {fs : FS} {p : String} {s : List Node} (h : namei fs p = some s) :
    Chain fs.top s (canonPath fs p).reverse := by
  unfold namei at h
  unfold canonPath
  split at h
  · simp at h
  · rename_i c cs hd
    simp only [hd, List.reverse_reverse]
    simp only at h
    by_cases hc : c = '/'
    · simp only [hc, if_true] at h ⊢
      exact chain_lookupFrom Chain.base h
    · simp only [hc, if_false] at h ⊢
      cases hcwd : lookupFrom [fs.top] fs.cwd with
      | none => simp [hcwd] at h
      | some st =>
        simp only [hcwd] at h
        exact chain_lookupFrom (chain_lookupFrom Chain.base hcwd) h

theorem descend_append (top : Node) (a b : List String) :
    descend top (a ++ b) = (descend top a).bind (fun nd => descend nd b) := by
  induction a generalizing top with
  | nil => simp [descend]
  | cons n ns ih =>
    cases top with
    | file => simp [descend]
    | dir r w x es =>
      simp only [List.cons_append, descend]
      cases findEntry n es with
      | none => simp
      | some nd => exact ih nd

theorem chain_descend {top : Node} {s : List Node} {ns : List String} (hch : Chain top s ns) :
    ∃ nd rest, s = nd :: rest ∧ descend top ns.reverse = some nd := by
  induction hch with
  | base => exact ⟨top, [], rfl, by simp [descend]⟩
  | step hprev hfind ih =>
    obtain ⟨nd0, rest0, hs0, hd0⟩ := ih
    simp only [List.cons.injEq] at hs0
    refine ⟨_, _, rfl, ?_⟩
    rw [List.reverse_cons, descend_append, hd0, ← hs0.1]
    simp [descend, hfind]

theorem findEntry_none_of_all {n : String} {es : List (String × Nat × Node)}
    (h : es.all (fun e => e.1 != n) = true) : findEntry n es = none := by
  induction es with
  | nil => rfl
  | cons e rest ih =>
    obtain ⟨m, t, c⟩ := e
    simp only [List.all_cons, Bool.and_eq_true, bne_iff_ne, ne_eq] at h
    simp only [findEntry, h.1, if_false]
    exact ih h.2

theorem findEntry_removeEntry_last {a : String} {es : List (String × Nat × Node)}
    (hwf : entriesWf es = true) : findEntry a (removeEntry es [a]) = none := by
  induction es with
  | nil => rfl
  | cons e rest ih =>
    obtain ⟨n, t, nd⟩ := e
    simp only [entriesWf, Bool.and_eq_true] at hwf
    simp only [removeEntry]
    by_cases hn : n = a
    · simp only [hn, if_true]
      rw [← hn]
      exact findEntry_none_of_all hwf.1.1.1.2
    · simp only [hn, if_false, findEntry]
      exact ih hwf.2

theorem findEntry_removeEntry_deep (a b : String) (bs : List String)
    (es : List (String × Nat × Node)) :
    findEntry a (removeEntry es (a :: b :: bs)) =
      (findEntry a es).map (fun nd => nd.removeAt (b :: bs)) := by
  induction es with
  | nil => rfl
  | cons e rest ih =>
    obtain ⟨n, t, nd⟩ := e
    simp only [removeEntry]
    by_cases hn : n = a
    · simp [hn, findEntry]
    · simp only [hn, if_false, findEntry]
      exact ih

/-- In a well-formed tree nothing is left at the place of a removed entry. -/
theorem descend_removeAt : ∀ (c : List String), c ≠ [] → ∀ top : Node, top.wf = true →
    descend (top.removeAt c) c = none := by
  intro c
  induction c with
  | nil => intro h; exact absurd rfl h
  | cons a as ih =>
    intro _ top hwf
    cases top with
    | file => simp [Node.removeAt, descend]
    | dir r w x es =>
      have hes : entriesWf es = true := by simpa [Node.wf] using hwf
      simp only [Node.removeAt, descend]
      cases as with
      | nil => simp [findEntry_removeEntry_last hes]
      | cons b bs =>
        rw [findEntry_removeEntry_deep]
        cases hf : findEntry a es with
        | none => simp
        | some nd =>
          simp only [Option.map_some']
          exact ih (by simp) nd (findEntry_wf hes hf).2.1

theorem chain_nil {top : Node} {s : List Node} {ns : List String} (h : Chain top s ns)
    (hns : ns = []) : s = [top] := by
  cases h with
  | base => rfl
  | step _ _ => simp at hns

theorem namei_top_file {fs : FS} (h : fs.top = Node.file) (p : String) : namei fs p = none := by
  have hone : ∀ (c : String) (cs : List String), lookupFrom [Node.file] (c :: cs) = none := by
    intro c cs
    simp [lookupFrom, lookupStep]
  unfold namei
  split
  · rfl
  · rename_i c cs hd
    simp only [h]
    cases hsp : (splitSlash (c :: cs)).map String.mk with
    | nil =>
      have := splitSlash_ne_nil (c :: cs)
      simp at hsp
      exact absurd hsp this
    | cons comp rest =>
      split
      · exact hone comp rest
      · cases hcwd : fs.cwd with
        | nil => simp [lookupFrom, lookupStep]
        | cons d ds => simp [hone]

/-- In a well-formed tree a path that `unlink` has removed no longer resolves:
the second assertion of `delete_file` holds after every successful `unlink`. -/
theorem unlink_removes {fs : FS} (hwf : fs.top.wf = true) {p : String}
    (h0 : (unlink fs p).1 = 0) : namei (unlink fs p).2 p = none := by
  rcases unlink_status fs p with ⟨_, ⟨anc, hnm⟩, hfs⟩ | ⟨h1, _⟩
  · rw [hfs]
    by_cases hc : canonPath fs p = []
    · have hch := chain_namei hnm
      have htop : fs.top = Node.file := by
        have := chain_nil hch (by simp [hc])
        simp only [List.cons.injEq] at this
        exact this.1.symm
      apply namei_top_file
      simp [htop, hc, Node.removeAt]
    · cases hres : namei { fs with top := fs.top.removeAt (canonPath fs p) } p with
      | none => rfl
      | some s1 =>
        have hch := chain_namei hres
        have hcp : canonPath { fs with top := fs.top.removeAt (canonPath fs p) } p =
            canonPath fs p := rfl
        rw [hcp] at hch
        obtain ⟨nd, rest, _, hd⟩ := chain_descend hch
        rw [List.reverse_reverse] at hd
        have := descend_removeAt (canonPath fs p) hc fs.top hwf
        simp only at hd
        rw [this] at hd
        exact absurd hd (by simp)
  · rw [h1] at h0
    exact absurd h0 (by decide)

/-- When `delete_file` returns, it returns `true` exactly when the path did not
exist before the call. -/
theorem delete_file_true_iff_missing (fs : FS) (path : String) (result : Bool) (fs1 : FS)
    (h : delete_file fs path = some (result, fs1)) :
    result = true ↔ CFile_exists fs path = false := by
  unfold delete_file at h
  split at h
  · simp only at h
    split at h
    · rename_i hpost
      simp only [Option.some.injEq, Prod.mk.injEq] at h
      rcases unlink_status fs (c_str path) with ⟨h0, ⟨anc, hnm⟩, _⟩ | ⟨h1, hfs⟩
      · have he : CFile_exists fs path = true := by simp [CFile_exists, stat, hnm]
        rw [← h.1, h0, he]
        simp
      · rw [hfs] at hpost
        rw [← h.1, h1]
        simpa using hpost
    · simp at h
  · simp at h

/-- In the larger tree `/m/frozen` has no write permission: `unlink` of its file
fails, the file still exists, and the second `assert` of `delete_file` aborts. -/
theorem delete_file_aborts_without_write :
    is_directory sampleFS "/m/frozen/f.txt" = false ∧
    (unlink sampleFS (c_str "/m/frozen/f.txt")).1 = -1 ∧
    CFile_exists (unlink sampleFS (c_str "/m/frozen/f.txt")).2 "/m/frozen/f.txt" = true ∧
    (delete_file sampleFS "/m/frozen/f.txt").isNone = true := by
  decide

/-- C11: on a path that is not a directory and does not exist after the call,
`delete_file` returns, and it returns `true` iff `unlink` returned a status
other than 0.  In particular, in a well-formed tree, whenever `unlink` succeeds
the file is removed, both assertions hold and `delete_file` returns `false`.
`move`, when its assertions hold, returns `true` iff `rename` returned 0. -/
theorem delete_file_result (fs : FS) (path src dst : String) :
    (is_directory fs path = false → CFile_exists (unlink fs (c_str path)).2 path = false →
      ∃ result, delete_file fs path = some (result, (unlink fs (c_str path)).2) ∧
        (result = true ↔ (unlink fs (c_str path)).1 ≠ 0)) ∧
    (fs.top.wf = true → (unlink fs (c_str path)).1 = 0 →
      delete_file fs path = some (false, (unlink fs (c_str path)).2)) ∧
    (CFile_exists (rename fs (c_str src) (c_str dst)).2 dst = true →
      CFile_exists (rename fs (c_str src) (c_str dst)).2 src = false →
      ∃ r, move fs src dst = some (r, (rename fs (c_str src) (c_str dst)).2) ∧
        (r = true ↔ (rename fs (c_str src) (c_str dst)).1 = 0)) := by
  refine ⟨?_, ?_, ?_⟩
  · intro hnd hpost
    refine ⟨(unlink fs (c_str path)).1 != 0, ?_, ?_⟩
    · simp [delete_file, hnd, hpost]
    · simp
  · intro hwf h0
    have hnd : is_directory fs path = false := by
      rcases unlink_status fs (c_str path) with ⟨_, ⟨anc, hnm⟩, _⟩ | ⟨h1, _⟩
      · simp only [is_directory, stat, hnm, S_ISDIR_st_mode, Node.isDir]
      · rw [h1] at h0
        exact absurd h0 (by decide)
    have hpost : CFile_exists (unlink fs (c_str path)).2 path = false := by
      simp [CFile_exists, stat, unlink_removes hwf h0]
    simp [delete_file, hnd, hpost, h0]
  · intro hdst hsrc
    refine ⟨(rename fs (c_str src) (c_str dst)).1 == 0, ?_, ?_⟩
    · simp [move, hdst, hsrc]
    · simp

/-- C11, in the larger tree: the file `/m/notes.txt` is removed, `unlink`
returns 0 and `delete_file` returns `false`; the path `/m/nope` does not exist,
`unlink` returns -1 and `delete_file` returns `true`; and moving
`/m/notes.txt` to `/m/lists/n.txt` succeeds and `move` returns `true`. -/
theorem delete_file_result_witness :
    ((unlink sampleFS (c_str "/m/nope")).1 = -1 ∧
      ∃ result, delete_file sampleFS "/m/nope" =
          some (result, (unlink sampleFS (c_str "/m/nope")).2) ∧
        (result = true ↔ (unlink sampleFS (c_str "/m/nope")).1 ≠ 0)) ∧
    ((unlink sampleFS (c_str "/m/notes.txt")).1 = 0 ∧
      delete_file sampleFS "/m/notes.txt" =
        some (false, (unlink sampleFS (c_str "/m/notes.txt")).2)) ∧
    ((rename sampleFS (c_str "/m/notes.txt") (c_str "/m/lists/n.txt")).1 = 0 ∧
      ∃ r, move sampleFS "/m/notes.txt" "/m/lists/n.txt" =
          some (r, (rename sampleFS (c_str "/m/notes.txt") (c_str "/m/lists/n.txt")).2) ∧
        (r = true ↔ (rename sampleFS (c_str "/m/notes.txt") (c_str "/m/lists/n.txt")).1 = 0)) :=
  ⟨⟨by decide,
      (delete_file_result sampleFS "/m/nope" "/m/notes.txt" "/m/lists/n.txt").1 (by decide)
        (by decide)⟩,
    ⟨by decide,
      (delete_file_result sampleFS "/m/notes.txt" "/m/notes.txt" "/m/lists/n.txt").2.1 (by decide)
        (by decide)⟩,
    ⟨by decide,
      (delete_file_result sampleFS "/m/notes.txt" "/m/notes.txt" "/m/lists/n.txt").2.2 (by decide)
        (by decide)⟩⟩

end Lumail
